import Mathlib

/-!
# The `ls` command of restic (`src/cmds/restic/cmd_ls.go`)

A shallow embedding of `printNode`, `printTree` and `runLs`, and the properties of the
listing they produce.

* Go strings are lists of characters.  The path functions below only inspect the ASCII
  characters `/` and `.`, which never occur inside a multi-byte UTF-8 sequence.
* `filepath.Join` and `filepath.Clean` follow the Go library on Unix, where the separator is
  the slash and there are no volume names.
* The repository is read-only during the command: `LoadTree`, `LoadSnapshot` and the
  snapshot resolvers are functions of the opened repository.
* Calls to the repository and to the output functions are recorded, in program order, in a
  trace of `Event`s.  Writes to standard output succeed.
* `Printf`, `Verbosef`, `Exitf` and `errors.Fatal` belong to other files of the program and
  are taken by their calls: `Printf(format)` writes what `fmt.Fprintf` makes of the format,
  `Exitf(code, format, args...)` ends the process with the status `code` and the formatted
  message, `errors.Fatal(s)` is an error with the message `s`.
* `printTree` is recursive without a bound of its own; the embedding takes a bound on the
  recursion depth (`fuel`) and reports `Outcome.running` when it is exceeded.
-/

namespace Restic

/-! ## Go strings and the part of the Go library used by `cmd_ls.go` -/

/-- A Go string. -/
abbrev GoString := List Char

/-- Go's `os.IsPathSeparator` on Unix: the separator is the slash. -/
def isPathSeparator (c : Char) : Bool := c == '/'

/-- Go's `strings.Join(elems, sep)`. -/
def stringsJoin (sep : GoString) : List GoString → GoString
  | [] => []
  | [e] => e
  | e :: es => e ++ sep ++ stringsJoin sep es

/-- The inner loop of the `..` case of `filepath.Clean`, after the first `out.w--`:
`for out.w > dotdot && !os.IsPathSeparator(out.index(out.w)) { out.w-- }`.
The argument and the result are the write index `out.w`. -/
def backtrack (buf : GoString) (dotdot : Nat) : Nat → Nat
  | 0 => 0
  | w + 1 =>
    if w + 1 > dotdot && !isPathSeparator (buf.getD (w + 1) ' ') then backtrack buf dotdot w
    else w + 1

/-- The main loop `for r < n { switch ... }` of Go's `filepath.Clean` (Unix).  `rest` is
`path[r:]`, `out` is the output buffer `buf[:out.w]` (the lazy buffer of the Go code is an
allocation-saving representation of it) and `dotdot` is the index where `..` must stop.
Every iteration consumes at least one character of `rest`, so `fuel = len(path)` iterations
are enough. -/
def cleanLoop (rooted : Bool) : Nat → GoString → GoString → Nat → GoString
  | 0, _, out, _ => out
  | _ + 1, [], out, _ => out
  | fuel + 1, c :: cs, out, dotdot =>
    if isPathSeparator c then
      -- empty path element
      cleanLoop rooted fuel cs out dotdot
    else if c == '.' && (cs.isEmpty || isPathSeparator (cs.headD ' ')) then
      -- . element
      cleanLoop rooted fuel cs out dotdot
    else if c == '.' && cs.headD ' ' == '.' &&
        (cs.tail.isEmpty || isPathSeparator (cs.tail.headD ' ')) then
      -- .. element: remove to last separator
      if out.length > dotdot then
        cleanLoop rooted fuel cs.tail (out.take (backtrack out dotdot (out.length - 1))) dotdot
      else if !rooted then
        let out1 := if out.length > 0 then out ++ ['/'] else out
        let out2 := out1 ++ ['.', '.']
        cleanLoop rooted fuel cs.tail out2 out2.length
      else
        cleanLoop rooted fuel cs.tail out dotdot
    else
      -- real path element: add slash if needed, copy element
      let out1 :=
        if (rooted && out.length != 1) || (!rooted && out.length != 0) then out ++ ['/'] else out
      let notSep := fun x => !isPathSeparator x
      cleanLoop rooted fuel ((c :: cs).dropWhile notSep) (out1 ++ (c :: cs).takeWhile notSep) dotdot

/-- Go's `filepath.Clean` on Unix (no volume names, `FromSlash` is the identity). -/
def Clean (path : GoString) : GoString :=
  if path.isEmpty then ['.']
  else
    let rooted := isPathSeparator (path.headD ' ')
    let out :=
      if rooted then cleanLoop rooted path.length path.tail ['/'] 1
      else cleanLoop rooted path.length path [] 0
    if out.length == 0 then ['.'] else out

/-- Go's `filepath.join` on Unix: the elements from the first non-empty one on are joined
with the separator and cleaned; the result is empty when every element is empty. -/
def join : List GoString → GoString
  | [] => []
  | e :: es => if !e.isEmpty then Clean (stringsJoin ['/'] (e :: es)) else join es

/-- Go's `filepath.Join(a, b)`. -/
def Join (a b : GoString) : GoString := join [a, b]

/-- Go's `%Nd` verb for a non-negative integer: decimal digits, right-justified with
spaces to width `w` (never truncated). -/
def fmtD (w : Nat) (n : Nat) : GoString :=
  let ds := Nat.toDigits 10 n
  List.replicate (w - ds.length) ' ' ++ ds

/-- Go's `%v` verb for a `[]string`. -/
def fmtStrings (xs : List GoString) : GoString :=
  ['['] ++ stringsJoin [' '] xs ++ [']']

/-- The value of `os.ModeDir`. -/
def ModeDir : Nat := 2 ^ 31

/-- The value of `os.ModeSymlink`. -/
def ModeSymlink : Nat := 2 ^ 27

/-- The formatting functions of the Go library that stay abstract: `os.FileMode.String`
(the `%s` verb on a mode), `time.Time.Format(TimeFormat)`, the `%q` verb on a string, and
`printf`, the text that `fmt.Fprintf` writes for a format without arguments. -/
structure Fmt (τ : Type) where
  modeString : Nat → GoString
  timeFormat : τ → GoString
  quote : GoString → GoString
  printf : GoString → GoString

/-- What is known of `fmt.Fprintf` here: a format without `%` is written as it is. -/
def Fmt.Literal {τ : Type} (F : Fmt τ) : Prop :=
  ∀ s : GoString, '%' ∉ s → F.printf s = s

/-! ## Data model -/

/-- A `restic.ID`; it is only used as a key. -/
abbrev ID := Nat

/-- A Go `error` value that is not nil: `fatal` marks the errors made by `errors.Fatal`,
`msg` is the result of `Error()`. -/
structure Error where
  fatal : Bool
  msg : GoString
deriving DecidableEq, Repr

/-- The call `errors.Fatal(s)`. -/
def Fatal (s : GoString) : Error := ⟨true, s⟩

/-- The fields of `restic.Node` that `cmd_ls.go` reads.  `Typ` is the field `Type` (a
reserved word here); `Subtree` is a pointer in Go: `none` is nil. -/
structure Node (τ : Type) where
  Name : GoString
  Typ : GoString
  Mode : Nat
  UID : Nat
  GID : Nat
  Size : Nat
  ModTime : τ
  LinkTarget : GoString
  Subtree : Option ID
deriving DecidableEq

/-- A `restic.Tree`. -/
structure Tree (τ : Type) where
  Nodes : List (Node τ)

/-- The fields of `restic.Snapshot` that `cmd_ls.go` reads.  `Tree` is a pointer in Go. -/
structure Snapshot (τ : Type) where
  Paths : List GoString
  Time : τ
  Tree : Option ID

/-- An opened repository: the results of the calls `repo.LoadIndex()`, `repo.LoadTree(id)`,
`restic.FindLatestSnapshot(repo, paths, host)`, `restic.FindSnapshot(repo, s)` and
`restic.LoadSnapshot(repo, id)`. -/
structure Repository (τ : Type) where
  LoadIndex : Except Error Unit
  LoadTree : ID → Except Error (Tree τ)
  FindLatestSnapshot : List GoString → GoString → Except Error ID
  FindSnapshot : GoString → Except Error ID
  LoadSnapshot : ID → Except Error (Snapshot τ)

/-- The options of the `ls` command (the package variable `lsOptions`). -/
structure LsOptions where
  ListLong : Bool
  Host : GoString
  Paths : List GoString

/-! ## printNode -/

/-- The function `printNode`. -/
def printNode {τ : Type} (F : Fmt τ) (lsOptions : LsOptions) (pfx : GoString)
    (n : Node τ) : GoString :=
  if !lsOptions.ListLong then Join pfx n.Name
  else if n.Typ = "file".toList then
    F.modeString n.Mode ++ " ".toList ++ fmtD 5 n.UID ++ " ".toList ++ fmtD 5 n.GID ++ " ".toList
      ++ fmtD 6 n.Size ++ " ".toList ++ F.timeFormat n.ModTime ++ " ".toList ++ Join pfx n.Name
  else if n.Typ = "dir".toList then
    F.modeString (n.Mode ||| ModeDir) ++ " ".toList ++ fmtD 5 n.UID ++ " ".toList ++ fmtD 5 n.GID
      ++ " ".toList ++ fmtD 6 n.Size ++ " ".toList ++ F.timeFormat n.ModTime ++ " ".toList
      ++ Join pfx n.Name
  else if n.Typ = "symlink".toList then
    F.modeString (n.Mode ||| ModeSymlink) ++ " ".toList ++ fmtD 5 n.UID ++ " ".toList
      ++ fmtD 5 n.GID ++ " ".toList ++ fmtD 6 n.Size ++ " ".toList ++ F.timeFormat n.ModTime
      ++ " ".toList ++ Join pfx n.Name ++ " -> ".toList ++ n.LinkTarget
  else "<Node(".toList ++ n.Typ ++ ") ".toList ++ n.Name ++ ">".toList

/-! ## Traces and outcomes -/

/-- The calls that `runLs` and `printTree` make to the repository and to the output
functions.  `printNode pfx entry` is the statement `Printf(printNode(prefix, entry) + "\n")`,
recorded with the arguments of `printNode`; `verbosef` is the call of `Verbosef` in
`runLs`. -/
inductive Event (τ : Type) where
  | openRepository
  | loadIndex
  | findLatestSnapshot (paths : List GoString) (host : GoString)
  | findSnapshot (s : GoString)
  | loadSnapshot (id : ID)
  | verbosef (paths : List GoString) (time : τ)
  | loadTree (id : ID)
  | printNode (pfx : GoString) (entry : Node τ)
deriving DecidableEq

/-- How a call ends: it returns a Go `error` (`none` is nil), the process is ended by
`Exitf(code, ...)` with the formatted message, a nil pointer is dereferenced, or the bound
on the recursion depth of the embedding is exceeded and the call is still running. -/
inductive Outcome where
  | returned (err : Option Error)
  | exited (code : Nat) (msg : GoString)
  | panicked
  | running
deriving DecidableEq

/-- The text that an event writes to standard output, if it writes one: the statement
`Printf(printNode(prefix, entry) + "\n")` passes the line to `Printf` as the format. -/
def Event.line {τ : Type} (F : Fmt τ) (lsOptions : LsOptions) : Event τ → Option GoString
  | .printNode pfx entry => some (F.printf (Restic.printNode F lsOptions pfx entry ++ ['\n']))
  | _ => none

/-- The listing: the lines written to standard output by the `Printf` of `printTree` along a
trace.  The header that `Verbosef` writes in `runLs` is not part of it. -/
def listing {τ : Type} (F : Fmt τ) (lsOptions : LsOptions) (tr : List (Event τ)) :
    List GoString :=
  tr.filterMap (Event.line F lsOptions)

/-- The arguments of the calls of `printNode` along a trace. -/
def printed {τ : Type} (tr : List (Event τ)) : List (GoString × Node τ) :=
  tr.filterMap fun
    | .printNode pfx entry => some (pfx, entry)
    | _ => none

/-- The arguments of the calls of `LoadTree` along a trace. -/
def loads {τ : Type} (tr : List (Event τ)) : List ID :=
  tr.filterMap fun
    | .loadTree id => some id
    | _ => none

/-! ## printTree -/

/-- The condition `entry.Type == "dir" && entry.Subtree != nil` of `printTree`; when it
holds the result is `*entry.Subtree`. -/
def descends {τ : Type} (entry : Node τ) : Option ID :=
  if entry.Typ = "dir".toList then entry.Subtree else none

/-- The loop `for _, entry := range tree.Nodes` of `printTree`; `recurse` is the recursive
call of `printTree`. -/
def printEntries {τ : Type} (recurse : GoString → ID → List (Event τ) × Outcome)
    (pfx : GoString) : List (Node τ) → List (Event τ) × Outcome
  | [] => ([], .returned none)
  | entry :: rest =>
    match descends entry with
    | some sub =>
      match recurse (Join pfx entry.Name) sub with
      | (tr, .returned none) =>
        let r := printEntries recurse pfx rest
        (.printNode pfx entry :: (tr ++ r.1), r.2)
      | (tr, o) => (.printNode pfx entry :: tr, o)
    | none =>
      let r := printEntries recurse pfx rest
      (.printNode pfx entry :: r.1, r.2)

/-- The function `printTree`, with its trace.  `fuel` bounds the depth of the recursion. -/
def printTree {τ : Type} (repo : Repository τ) : Nat → GoString → ID → List (Event τ) × Outcome
  | 0, _, _ => ([], .running)
  | fuel + 1, pfx, id =>
    match repo.LoadTree id with
    | .error err => ([.loadTree id], .returned (some err))
    | .ok tree =>
      let r := printEntries (printTree repo fuel) pfx tree.Nodes
      (.loadTree id :: r.1, r.2)

/-! ## runLs -/

/-- The message of `Exitf(1, "latest snapshot for criteria not found: %v Paths:%v Host:%v",
err, lsOptions.Paths, lsOptions.Host)`. -/
def latestNotFoundMsg (err : Error) (paths : List GoString) (host : GoString) : GoString :=
  "latest snapshot for criteria not found: ".toList ++ err.msg ++ " Paths:".toList
    ++ fmtStrings paths ++ " Host:".toList ++ host

/-- The message of `Exitf(1, "invalid id %q: %v", snapshotIDString, err)`. -/
def invalidIdMsg {τ : Type} (F : Fmt τ) (snapshotIDString : GoString) (err : Error) : GoString :=
  "invalid id ".toList ++ F.quote snapshotIDString ++ ": ".toList ++ err.msg

/-- The end of `runLs`, from `sn, err := restic.LoadSnapshot(repo, id)` on; `pre` is the
trace up to that statement. -/
def runLsLoaded {τ : Type} (repo : Repository τ) (fuel : Nat) (pre : List (Event τ)) (id : ID) :
    List (Event τ) × Outcome :=
  match repo.LoadSnapshot id with
  | .error err => (pre ++ [.loadSnapshot id], .returned (some err))
  | .ok sn =>
    match sn.Tree with
    | none => (pre ++ [.loadSnapshot id, .verbosef sn.Paths sn.Time], .panicked)
    | some root =>
      let r := printTree repo fuel [] root
      (pre ++ [.loadSnapshot id, .verbosef sn.Paths sn.Time] ++ r.1, r.2)

/-- The function `runLs`, with its trace.  `OpenRepository` is the function of that name,
`lsOptions` the package variable, `fuel` the bound passed on to `printTree`. -/
def runLs {τ G : Type} (F : Fmt τ) (OpenRepository : G → Except Error (Repository τ))
    (lsOptions : LsOptions) (fuel : Nat) (gopts : G) (args : List GoString) :
    List (Event τ) × Outcome :=
  if args.length < 1 ∨ args.length > 2 then
    ([], .returned (some (Fatal "no snapshot ID given".toList)))
  else
    match OpenRepository gopts with
    | .error err => ([.openRepository], .returned (some err))
    | .ok repo =>
      match repo.LoadIndex with
      | .error err => ([.openRepository, .loadIndex], .returned (some err))
      | .ok _ =>
        -- `args[0]`, which exists after the check of `len(args)`
        let snapshotIDString := args.headD []
        if snapshotIDString = "latest".toList then
          match repo.FindLatestSnapshot lsOptions.Paths lsOptions.Host with
          | .error err =>
            ([.openRepository, .loadIndex,
                .findLatestSnapshot lsOptions.Paths lsOptions.Host],
              .exited 1 (latestNotFoundMsg err lsOptions.Paths lsOptions.Host))
          | .ok id =>
            runLsLoaded repo fuel
              [.openRepository, .loadIndex, .findLatestSnapshot lsOptions.Paths lsOptions.Host] id
        else
          match repo.FindSnapshot snapshotIDString with
          | .error err =>
            ([.openRepository, .loadIndex, .findSnapshot snapshotIDString],
              .exited 1 (invalidIdMsg F snapshotIDString err))
          | .ok id =>
            runLsLoaded repo fuel
              [.openRepository, .loadIndex, .findSnapshot snapshotIDString] id

/-- The events that resolve the snapshot reference. -/
def Event.IsResolve {τ : Type} : Event τ → Prop
  | .findLatestSnapshot _ _ => True
  | .findSnapshot _ => True
  | _ => False

/-- The events that read the repository through its index: the snapshot resolution,
`LoadSnapshot` and `LoadTree`. -/
def Event.NeedsIndex {τ : Type} : Event τ → Prop
  | .findLatestSnapshot _ _ => True
  | .findSnapshot _ => True
  | .loadSnapshot _ => True
  | .loadTree _ => True
  | _ => False

/-- The events of the traversal: the loads of trees and the listing lines. -/
def Event.IsTraversal {τ : Type} : Event τ → Prop
  | .loadTree _ => True
  | .printNode _ _ => True
  | _ => False

/-- The message with which `runLs` ends the process when the resolver fails with `err`. -/
def resolveMsg {τ : Type} (F : Fmt τ) (lsOptions : LsOptions) (args : List GoString)
    (err : Error) : GoString :=
  if args.headD [] = "latest".toList then
    latestNotFoundMsg err lsOptions.Paths lsOptions.Host
  else invalidIdMsg F (args.headD []) err

/-- The resolver call that `runLs` makes for the arguments `args`. -/
def resolveEvent {τ : Type} (lsOptions : LsOptions) (args : List GoString) : Event τ :=
  if args.headD [] = "latest".toList then .findLatestSnapshot lsOptions.Paths lsOptions.Host
  else .findSnapshot (args.headD [])

/-- The result of the resolver call that `runLs` makes for the arguments `args`. -/
def resolveResult {τ : Type} (repo : Repository τ) (lsOptions : LsOptions)
    (args : List GoString) : Except Error ID :=
  if args.headD [] = "latest".toList then
    repo.FindLatestSnapshot lsOptions.Paths lsOptions.Host
  else repo.FindSnapshot (args.headD [])

/-! ## The snapshot as a finite tree, and its pre-order listing -/

/-- The contents of a directory whose whole subgraph is finite: a list of entries, each with
what lies below it.  `leaf` is an entry that has nothing below it, `dir` a directory entry
with the contents of its subtree, `broken` a directory entry whose subtree cannot be loaded,
with the error of the load. -/
inductive Forest (τ : Type) where
  | nil
  | leaf (n : Node τ) (rest : Forest τ)
  | dir (n : Node τ) (sub : Forest τ) (rest : Forest τ)
  | broken (n : Node τ) (err : Error) (rest : Forest τ)

/-- The relation between the nodes of a tree in the repository and the finite forest they
unfold to: an entry is a `dir` or `broken` entry when its type is `dir` and it has a
`Subtree` reference, according to the result of loading that reference. -/
inductive Unfolds {τ : Type} (repo : Repository τ) : List (Node τ) → Forest τ → Prop where
  | nil : Unfolds repo [] .nil
  | leaf {n ns rest} : (n.Typ = "dir".toList → n.Subtree = none) → Unfolds repo ns rest →
      Unfolds repo (n :: ns) (.leaf n rest)
  | dir {n ns s t sub rest} : n.Typ = "dir".toList → n.Subtree = some s →
      repo.LoadTree s = .ok t → Unfolds repo t.Nodes sub → Unfolds repo ns rest →
      Unfolds repo (n :: ns) (.dir n sub rest)
  | broken {n ns s err rest} : n.Typ = "dir".toList → n.Subtree = some s →
      repo.LoadTree s = .error err → Unfolds repo ns rest →
      Unfolds repo (n :: ns) (.broken n err rest)

/-- The trees that can be reached from a tree: the tree itself, and the `Subtree` of every
directory node of a reachable tree that loads. -/
inductive Reachable {τ : Type} (repo : Repository τ) (root : ID) : ID → Prop where
  | root : Reachable repo root root
  | step {id t n s} : Reachable repo root id → repo.LoadTree id = .ok t → n ∈ t.Nodes →
      n.Typ = "dir".toList → n.Subtree = some s → Reachable repo root s

/-- The graph reachable from a tree is finite and acyclic: every chain of `Subtree`
references ends.  A tree that fails to load ends a chain. -/
inductive Acyclic {τ : Type} (repo : Repository τ) : ID → Prop where
  | fails {id err} : repo.LoadTree id = .error err → Acyclic repo id
  | loads {id t} : repo.LoadTree id = .ok t →
      (∀ n ∈ t.Nodes, ∀ s, n.Typ = "dir".toList → n.Subtree = some s → Acyclic repo s) →
      Acyclic repo id

/-- Every tree reachable from `root` loads. -/
def AllLoad {τ : Type} (repo : Repository τ) (root : ID) : Prop :=
  ∀ s, Reachable repo root s → ∃ t, repo.LoadTree s = .ok t

/-- The depth-first pre-order listing of a forest: the entries in their stored order, each
paired with the path of its directory, and each directory entry followed at once by the
listing of its subtree under `Join(pfx, Name)`.  Nothing is listed below a broken entry. -/
def Forest.preorder {τ : Type} (pfx : GoString) : Forest τ → List (GoString × Node τ)
  | .nil => []
  | .leaf n rest => (pfx, n) :: preorder pfx rest
  | .dir n sub rest => (pfx, n) :: (preorder (Join pfx n.Name) sub ++ preorder pfx rest)
  | .broken n _ rest => (pfx, n) :: preorder pfx rest

/-- The pre-order listing of a forest in which each entry is paired with the names of its
ancestor directory entries, from the root down. -/
def Forest.withAncestors {τ : Type} (anc : List GoString) :
    Forest τ → List (List GoString × Node τ)
  | .nil => []
  | .leaf n rest => (anc, n) :: withAncestors anc rest
  | .dir n sub rest => (anc, n) :: (withAncestors (anc ++ [n.Name]) sub ++ withAncestors anc rest)
  | .broken n _ rest => (anc, n) :: withAncestors anc rest

/-- The error of the first broken entry of a forest in pre-order. -/
def Forest.firstError {τ : Type} : Forest τ → Option Error
  | .nil => none
  | .leaf _ rest => firstError rest
  | .dir _ sub rest => (firstError sub).orElse fun _ => firstError rest
  | .broken _ err _ => some err

/-- The number of directory levels of a forest. -/
def Forest.depth {τ : Type} : Forest τ → Nat
  | .nil => 0
  | .leaf _ rest => depth rest
  | .dir _ sub rest => max (depth sub + 1) (depth rest)
  | .broken _ _ rest => max 1 (depth rest)

/-- The position, in the pre-order listing, of the first broken entry of a forest (the
length of the listing when there is none). -/
def Forest.failIndex {τ : Type} : Forest τ → Nat
  | .nil => 0
  | .leaf _ rest => failIndex rest + 1
  | .dir _ sub rest =>
    if sub.firstError = none then (sub.preorder []).length + failIndex rest + 1
    else failIndex sub + 1
  | .broken _ _ _ => 0

/-- The trace of a traversal of a forest that stops after the load of the first broken
entry: each entry is printed, the subtree of a directory entry is loaded and traversed right
after the entry is printed. -/
def Forest.events {τ : Type} (pfx : GoString) : Forest τ → List (Event τ)
  | .nil => []
  | .leaf n rest => .printNode pfx n :: events pfx rest
  | .dir n sub rest =>
    .printNode pfx n :: .loadTree (n.Subtree.getD 0) ::
      (events (Join pfx n.Name) sub ++ if sub.firstError = none then events pfx rest else [])
  | .broken n _ _ => [.printNode pfx n, .loadTree (n.Subtree.getD 0)]

/-- The events that belong to an emitted entry: its line, followed by the load of its subtree
exactly when the node has the type `dir` and a `Subtree` reference. -/
def entryEvents {τ : Type} (q : GoString × Node τ) : List (Event τ) :=
  .printNode q.1 q.2 ::
    (if q.2.Typ = "dir".toList then q.2.Subtree.toList.map .loadTree else [])

/-- Every tree loaded along the trace loads without an error. -/
def LoadsOk {τ : Type} (repo : Repository τ) (tr : List (Event τ)) : Prop :=
  ∀ s ∈ loads tr, ∃ t, repo.LoadTree s = .ok t

/-- The trace ends with the line of a directory node and the load of its subtree, which
fails with `err`; every load before it succeeds. -/
def FailsAt {τ : Type} (repo : Repository τ) (tr : List (Event τ)) (err : Error) : Prop :=
  ∃ pre p n s, tr = pre ++ [.printNode p n, .loadTree s] ∧ n.Typ = "dir".toList ∧
    n.Subtree = some s ∧ repo.LoadTree s = .error err ∧ LoadsOk repo pre

/-- Every name of an entry of the forest satisfies `valid`. -/
def Forest.NamesValid {τ : Type} (valid : GoString → Prop) : Forest τ → Prop
  | .nil => True
  | .leaf n rest => valid n.Name ∧ NamesValid valid rest
  | .dir n sub rest => valid n.Name ∧ NamesValid valid sub ∧ NamesValid valid rest
  | .broken n _ rest => valid n.Name ∧ NamesValid valid rest

/-- A name of a directory entry: not empty, without a path separator, and neither `.` nor
`..`. -/
def ValidName (name : GoString) : Prop :=
  name ≠ [] ∧ '/' ∉ name ∧ name ≠ ['.'] ∧ name ≠ ['.', '.']

/-- A name of a directory entry that holds no `%`. -/
def PlainName (name : GoString) : Prop :=
  ValidName name ∧ '%' ∉ name

instance : DecidablePred ValidName := fun name => by
  unfold ValidName
  exact inferInstance

instance : DecidablePred PlainName := fun name => by
  unfold PlainName
  exact inferInstance

/-- The path of an entry as the specification of the traversal gives it: the names of the
ancestors and the own name, joined with the path separator. -/
def joinedPath (anc : List GoString) (name : GoString) : GoString :=
  stringsJoin ['/'] (anc ++ [name])

/-! ## Example repositories -/

/-- A node of the examples. -/
def exNode (name typ : String) (sub : Option ID) : Node Unit :=
  ⟨name.toList, typ.toList, 0o644, 1000, 1000, 12, (), [], sub⟩

/-- A repository whose trees are given by `trees` and whose other calls succeed: every
snapshot reference resolves to snapshot 7, whose tree is 1. -/
def exRepoOf (trees : ID → Except Error (Tree Unit)) : Repository Unit :=
  ⟨.ok (), trees, fun _ _ => .ok 7, fun _ => .ok 7, fun _ => .ok ⟨[], (), some 1⟩⟩

/-- The error of a tree that is not in the repository. -/
def notFound : Error := ⟨false, "not found".toList⟩

/-- The repository of the traversal example: tree 1 is `[fileA, dirB, fileD]`, tree 2, the
subtree of `dirB`, is `[fileC]`. -/
def exRepo : Repository Unit :=
  exRepoOf fun id =>
    if id = 1 then .ok ⟨[exNode "fileA" "file" none, exNode "dirB" "dir" (some 2),
      exNode "fileD" "file" none]⟩
    else if id = 2 then .ok ⟨[exNode "fileC" "file" none]⟩
    else .error notFound

/-- The forest of `exRepo` below tree 1. -/
def exForest : Forest Unit :=
  .leaf (exNode "fileA" "file" none) <|
  .dir (exNode "dirB" "dir" (some 2)) (.leaf (exNode "fileC" "file" none) .nil) <|
  .leaf (exNode "fileD" "file" none) .nil

/-- The repository `exRepo` without tree 2: the subtree of `dirB` fails to load. -/
def brokenRepo : Repository Unit :=
  exRepoOf fun id =>
    if id = 1 then .ok ⟨[exNode "fileA" "file" none, exNode "dirB" "dir" (some 2),
      exNode "fileD" "file" none]⟩
    else .error notFound

/-- A corrupted repository: the directory node of tree 1 refers to tree 1 itself. -/
def selfRepo : Repository Unit :=
  exRepoOf fun id =>
    if id = 1 then .ok ⟨[exNode "d" "dir" (some 1)]⟩ else .error notFound

/-- A repository with a directory `a` that holds an entry named `.`. -/
def dotRepo : Repository Unit :=
  exRepoOf fun id =>
    if id = 1 then .ok ⟨[exNode "a" "dir" (some 2)]⟩
    else if id = 2 then .ok ⟨[exNode "." "file" none]⟩
    else .error notFound

/-- A repository in which no snapshot reference resolves. -/
def noSnapshotRepo : Repository Unit :=
  ⟨.ok (), fun _ => .error notFound, fun _ _ => .error notFound, fun _ => .error notFound,
    fun _ => .error notFound⟩

/-- A repository whose index fails to load. -/
def noIndexRepo : Repository Unit :=
  ⟨.error notFound, fun _ => .error notFound, fun _ _ => .ok 7, fun _ => .ok 7,
    fun _ => .error notFound⟩

/-- A repository in which references resolve to snapshot 7, which fails to load. -/
def lostSnapshotRepo : Repository Unit :=
  ⟨.ok (), fun _ => .error notFound, fun _ _ => .ok 7, fun _ => .ok 7,
    fun _ => .error notFound⟩

/-- An `OpenRepository` that opens the repository `repo`. -/
def openOk (repo : Repository Unit) : Unit → Except Error (Repository Unit) :=
  fun _ => .ok repo

/-- An `OpenRepository` that fails. -/
def openFails : Unit → Except Error (Repository Unit) :=
  fun _ => .error notFound

/-- A socket node of the examples. -/
def sockA : Node Unit := ⟨"s".toList, "socket".toList, 0o644, 1000, 1000, 12, (), [], none⟩

/-- A socket node with the name of `sockA` and another mode and size. -/
def sockB : Node Unit := ⟨"s".toList, "socket".toList, 0o600, 1000, 1000, 99, (), [], none⟩

/-- Formatting functions for the examples: the mode in octal digits, a fixed time, no
quotes, and every format written as it is (the examples print no `%`). -/
def exFmt : Fmt Unit :=
  ⟨fun m => Nat.toDigits 8 m, fun _ => "T".toList, fun s => s, fun s => s⟩

/-- The options of a short listing. -/
def shortOpts : LsOptions := ⟨false, [], []⟩

/-- The options of a long listing. -/
def longOpts : LsOptions := ⟨true, [], []⟩

/-! ## `filepath.Join` on file names -/

section Paths

/-- The loop of `Clean` consumes a character in every iteration: once the fuel is the
length of the rest of the path, more fuel changes nothing, so `Clean` runs its loop to the
end of the path. -/
theorem cleanLoop_fuel (rooted : Bool) :
    ∀ (fuel : Nat) (rest out : GoString) (dotdot : Nat), rest.length ≤ fuel →
      cleanLoop rooted (fuel + 1) rest out dotdot = cleanLoop rooted fuel rest out dotdot := by
  intro fuel
  induction fuel with
  | zero =>
    intro rest out dotdot h
    have : rest = [] := List.length_eq_zero.1 (Nat.le_zero.1 h)
    subst this
    rfl
  | succ k ih =>
    intro rest out dotdot h
    cases rest with
    | nil => rfl
    | cons c cs =>
      have hcs : cs.length ≤ k := by simpa using h
      have htail : cs.tail.length ≤ k := by
        have := List.length_tail cs
        omega
      rw [cleanLoop, cleanLoop]
      by_cases h1 : isPathSeparator c = true
      · simp only [h1, if_true]
        exact ih cs out dotdot hcs
      · have hdrop : ((c :: cs).dropWhile fun x => !isPathSeparator x).length ≤ k := by
          have hc : (!isPathSeparator c) = true := by simpa using h1
          rw [List.dropWhile_cons, if_pos hc]
          exact Nat.le_trans (List.dropWhile_sublist _).length_le hcs
        simp only [ih _ _ _ hcs, ih _ _ _ htail, ih _ _ _ hdrop]

theorem takeWhile_notSep_append (l tail : GoString) (hl : '/' ∉ l)
    (ht : tail = [] ∨ ∃ t, tail = '/' :: t) :
    (l ++ tail).takeWhile (fun x => !isPathSeparator x) = l ∧
      (l ++ tail).dropWhile (fun x => !isPathSeparator x) = tail := by
  induction l with
  | nil =>
    rcases ht with rfl | ⟨t, rfl⟩
    · exact ⟨rfl, rfl⟩
    · exact ⟨rfl, rfl⟩
  | cons c cs ih =>
    have hc : isPathSeparator c = false := by
      unfold isPathSeparator
      rw [beq_eq_false_iff_ne]
      intro h
      exact hl (h ▸ List.mem_cons_self _ _)
    have ih := ih fun h => hl (List.mem_cons_of_mem _ h)
    simp only [List.cons_append, List.takeWhile_cons, List.dropWhile_cons, hc, Bool.not_false,
      if_true, ih.1, ih.2, and_self]

theorem isPathSeparator_of_not_mem {c : Char} {l : GoString} (hl : '/' ∉ l) (hc : c ∈ l) :
    isPathSeparator c = false := by
  unfold isPathSeparator
  rw [beq_eq_false_iff_ne]
  intro h
  exact hl (h ▸ hc)

/-- One iteration of the loop of `Clean` at the start of a file name: the name is copied to
the output, after a separator when the output is not empty. -/
theorem cleanLoop_name (name tail : GoString) (hv : ValidName name)
    (ht : tail = [] ∨ ∃ t, tail = '/' :: t) (fuel : Nat) (out : GoString) :
    cleanLoop false (fuel + 1) (name ++ tail) out 0 =
      cleanLoop false fuel tail ((if out.length != 0 then out ++ ['/'] else out) ++ name) 0 := by
  obtain ⟨hne, hsep, hdot, hdotdot⟩ := hv
  cases name with
  | nil => exact absurd rfl hne
  | cons c cs =>
    have h1 : isPathSeparator c = false :=
      isPathSeparator_of_not_mem hsep (List.mem_cons_self _ _)
    have h2 : (c == '.' && ((cs ++ tail).isEmpty || isPathSeparator ((cs ++ tail).headD ' ')))
        = false := by
      cases cs with
      | nil =>
        have : (c == '.') = false := by
          rw [beq_eq_false_iff_ne]
          intro h
          exact hdot (by rw [h])
        rw [this, Bool.false_and]
      | cons d cs' =>
        have hd : isPathSeparator d = false :=
          isPathSeparator_of_not_mem hsep (List.mem_cons_of_mem _ (List.mem_cons_self _ _))
        simp only [List.cons_append, List.isEmpty_cons, List.headD_cons, hd, Bool.or_false,
          Bool.and_false]
    have h3 : (c == '.' && (cs ++ tail).headD ' ' == '.' &&
        ((cs ++ tail).tail.isEmpty || isPathSeparator ((cs ++ tail).tail.headD ' '))) = false := by
      cases cs with
      | nil =>
        have : (c == '.') = false := by
          rw [beq_eq_false_iff_ne]
          intro h
          exact hdot (by rw [h])
        rw [this, Bool.false_and, Bool.false_and]
      | cons d cs' =>
        cases cs' with
        | nil =>
          have : (c == '.' && d == '.') = false := by
            rw [Bool.and_eq_false_iff, beq_eq_false_iff_ne, beq_eq_false_iff_ne]
            by_contra h
            push_neg at h
            exact hdotdot (by rw [h.1, h.2])
          simp only [List.cons_append, List.headD_cons, this, Bool.false_and]
        | cons e cs'' =>
          have he : isPathSeparator e = false :=
            isPathSeparator_of_not_mem hsep
              (List.mem_cons_of_mem _ (List.mem_cons_of_mem _ (List.mem_cons_self _ _)))
          simp only [List.cons_append, List.tail_cons, List.isEmpty_cons, List.headD_cons, he,
            Bool.or_false, Bool.and_false]
    have htd := takeWhile_notSep_append (c :: cs) tail hsep ht
    simp only [List.cons_append] at htd h2 h3 ⊢
    rw [cleanLoop]
    simp only [h1, h2, h3, Bool.false_eq_true, if_false, htd.1, htd.2, Bool.false_and,
      Bool.not_false, Bool.true_and, Bool.false_or]

/-- The loop of `Clean` copies a path made of file names. -/
theorem cleanLoop_names (names : List GoString) :
    names ≠ [] → (∀ name ∈ names, ValidName name) → ∀ (fuel : Nat) (out : GoString),
      (stringsJoin ['/'] names).length ≤ fuel →
      cleanLoop false fuel (stringsJoin ['/'] names) out 0 =
        (if out.length != 0 then out ++ ['/'] else out) ++ stringsJoin ['/'] names := by
  induction names with
  | nil => intro h; exact absurd rfl h
  | cons name rest ih =>
    intro _ hv fuel out hfuel
    have hname := hv name (List.mem_cons_self _ _)
    have hpos : 0 < name.length := List.length_pos.2 hname.1
    cases rest with
    | nil =>
      simp only [stringsJoin] at hfuel ⊢
      obtain ⟨k, rfl⟩ : ∃ k, fuel = k + 1 := ⟨fuel - 1, by omega⟩
      have := cleanLoop_name name [] hname (.inl rfl) k out
      rw [List.append_nil] at this
      rw [this]
      cases k <;> rfl
    | cons name2 rest2 =>
      simp only [stringsJoin, List.length_append, List.length_singleton] at hfuel ⊢
      obtain ⟨k, rfl⟩ : ∃ k, fuel = k + 2 := ⟨fuel - 2, by omega⟩
      have hstep := cleanLoop_name name (['/'] ++ stringsJoin ['/'] (name2 :: rest2)) hname
        (.inr ⟨_, rfl⟩) (k + 1) out
      rw [List.append_assoc, hstep]
      have hsepstep : ∀ o : GoString,
          cleanLoop false (k + 1) (['/'] ++ stringsJoin ['/'] (name2 :: rest2)) o 0 =
            cleanLoop false k (stringsJoin ['/'] (name2 :: rest2)) o 0 := by
        intro o
        simp only [List.singleton_append]
        rw [cleanLoop]
        simp [isPathSeparator]
      rw [hsepstep]
      rw [ih (List.cons_ne_nil _ _) (fun nm hnm => hv nm (List.mem_cons_of_mem _ hnm)) k _
        (by omega)]
      have hlen : ((if out.length != 0 then out ++ ['/'] else out) ++ name).length != 0 := by
        simp only [List.length_append, bne_iff_ne, ne_eq]
        omega
      rw [if_pos hlen]
      simp only [List.append_assoc]

/-- The function `Clean` leaves a path made of file names as it is. -/
theorem Clean_names (names : List GoString) (hne : names ≠ [])
    (hv : ∀ name ∈ names, ValidName name) :
    Clean (stringsJoin ['/'] names) = stringsJoin ['/'] names := by
  obtain ⟨name, rest, rfl⟩ := List.exists_cons_of_ne_nil hne
  have hname := hv name (List.mem_cons_self _ _)
  obtain ⟨c, cs, rfl⟩ := List.exists_cons_of_ne_nil hname.1
  have hc : isPathSeparator c = false :=
    isPathSeparator_of_not_mem hname.2.1 (List.mem_cons_self _ _)
  obtain ⟨p, hp⟩ : ∃ p, stringsJoin ['/'] ((c :: cs) :: rest) = c :: p := by
    cases rest with
    | nil => exact ⟨cs, rfl⟩
    | cons r rs => exact ⟨_, rfl⟩
  have hloop := cleanLoop_names ((c :: cs) :: rest) hne hv
    (stringsJoin ['/'] ((c :: cs) :: rest)).length [] (Nat.le_refl _)
  simp only [List.length_nil, bne_self_eq_false, Bool.false_eq_true, if_false,
    List.nil_append] at hloop
  rw [hp] at hloop ⊢
  simp only [List.length_cons] at hloop
  simp [Clean, hc, hloop]

theorem stringsJoin_append_singleton (sep : GoString) (names : List GoString)
    (hne : names ≠ []) (name : GoString) :
    stringsJoin sep (names ++ [name]) = stringsJoin sep names ++ sep ++ name := by
  induction names with
  | nil => exact absurd rfl hne
  | cons a rest ih =>
    cases rest with
    | nil => rfl
    | cons b rest2 =>
      have h := ih (List.cons_ne_nil _ _)
      change a ++ sep ++ stringsJoin sep ((b :: rest2) ++ [name]) =
        (a ++ sep ++ stringsJoin sep (b :: rest2)) ++ sep ++ name
      rw [h]
      simp only [List.append_assoc]

theorem stringsJoin_ne_nil (names : List GoString) (hne : names ≠ [])
    (hv : ∀ name ∈ names, ValidName name) : stringsJoin ['/'] names ≠ [] := by
  obtain ⟨name, rest, rfl⟩ := List.exists_cons_of_ne_nil hne
  have hname := hv name (List.mem_cons_self _ _)
  obtain ⟨c, cs, rfl⟩ := List.exists_cons_of_ne_nil hname.1
  cases rest <;> simp [stringsJoin]

/-- The function `Join` on the joined names of the ancestors and a file name: the names
joined with the separator. -/
theorem Join_names (anc : List GoString) (name : GoString)
    (hanc : ∀ a ∈ anc, ValidName a) (hname : ValidName name) :
    Join (stringsJoin ['/'] anc) name = stringsJoin ['/'] (anc ++ [name]) := by
  have hall : ∀ a ∈ anc ++ [name], ValidName a := by
    intro a ha
    rcases List.mem_append.1 ha with h | h
    · exact hanc a h
    · rw [List.mem_singleton.1 h]; exact hname
  have hclean := Clean_names (anc ++ [name]) (by simp) hall
  cases anc with
  | nil =>
    obtain ⟨c, cs, rfl⟩ := List.exists_cons_of_ne_nil hname.1
    simpa [Join, join, stringsJoin] using hclean
  | cons a rest =>
    have hne := stringsJoin_ne_nil (a :: rest) (List.cons_ne_nil _ _) hanc
    obtain ⟨c, cs, hcs⟩ := List.exists_cons_of_ne_nil hne
    rw [stringsJoin_append_singleton _ _ (List.cons_ne_nil _ _)] at hclean ⊢
    simp only [Join, join, hcs, List.isEmpty_cons, Bool.not_false, if_true, stringsJoin]
    rw [hcs] at hclean
    exact hclean

end Paths

/-! ## The traversal of a finite forest -/

section Traversal

variable {τ : Type} {repo : Repository τ}

theorem descends_eq_none {n : Node τ} (h : n.Typ = "dir".toList → n.Subtree = none) :
    descends n = none := by
  unfold descends
  split
  · next hd => exact h hd
  · rfl

theorem descends_eq_some {n : Node τ} {s : ID} (hd : n.Typ = "dir".toList)
    (hs : n.Subtree = some s) : descends n = some s := by
  unfold descends
  rw [if_pos hd, hs]

theorem descends_some_iff {n : Node τ} {s : ID} :
    descends n = some s ↔ n.Typ = "dir".toList ∧ n.Subtree = some s := by
  unfold descends
  by_cases hd : n.Typ = "dir".toList
  · rw [if_pos hd]
    exact ⟨fun h => ⟨hd, h⟩, fun h => h.2⟩
  · rw [if_neg hd]
    exact ⟨fun h => (by cases h), fun h => absurd h.1 hd⟩

/-- The loop of `printTree` over the nodes of a forest produces the trace `Forest.events`
and returns the first error, as soon as the recursion may go as deep as the forest. -/
theorem printEntries_unfolds {ns : List (Node τ)} {f : Forest τ} (h : Unfolds repo ns f) :
    ∀ (fuel : Nat) (pfx : GoString), f.depth ≤ fuel →
      printEntries (printTree repo fuel) pfx ns = (f.events pfx, .returned f.firstError) := by
  induction h with
  | nil => intro fuel pfx _; rfl
  | @leaf n ns rest hn _ ih =>
    intro fuel pfx hf
    simp only [Forest.depth] at hf
    simp only [printEntries, descends_eq_none hn, ih fuel pfx hf, Forest.events,
      Forest.firstError]
  | @dir n ns s t sub rest hd hs hl _ _ ihsub ihrest =>
    intro fuel pfx hf
    simp only [Forest.depth] at hf
    obtain ⟨k, rfl⟩ : ∃ k, fuel = k + 1 := ⟨fuel - 1, by omega⟩
    have hsub := ihsub k (Join pfx n.Name) (by omega)
    have hrest := ihrest (k + 1) pfx (by omega)
    have hrec : printTree repo (k + 1) (Join pfx n.Name) s =
        (.loadTree s :: sub.events (Join pfx n.Name), .returned sub.firstError) := by
      simp only [printTree, hl, hsub]
    simp only [printEntries, descends_eq_some hd hs, hrec, hrest, Forest.events,
      Forest.firstError, hs, Option.getD_some]
    cases hfe : sub.firstError with
    | none => simp [Option.orElse]
    | some e => simp [Option.orElse]
  | @broken n ns s err rest hd hs hl _ _ =>
    intro fuel pfx hf
    simp only [Forest.depth] at hf
    obtain ⟨k, rfl⟩ : ∃ k, fuel = k + 1 := ⟨fuel - 1, by omega⟩
    have hrec : printTree repo (k + 1) (Join pfx n.Name) s =
        ([.loadTree s], .returned (some err)) := by
      simp only [printTree, hl]
    simp only [printEntries, descends_eq_some hd hs, hrec, Forest.events,
      Forest.firstError, hs, Option.getD_some]

/-- The call `printTree` on a tree that loads and unfolds to a forest. -/
theorem printTree_unfolds {id : ID} {t : Tree τ} {f : Forest τ}
    (hl : repo.LoadTree id = .ok t) (h : Unfolds repo t.Nodes f) (fuel : Nat) (pfx : GoString)
    (hf : f.depth + 1 ≤ fuel) :
    printTree repo fuel pfx id = (.loadTree id :: f.events pfx, .returned f.firstError) := by
  obtain ⟨k, rfl⟩ : ∃ k, fuel = k + 1 := ⟨fuel - 1, by omega⟩
  simp only [printTree, hl, printEntries_unfolds h k pfx (by omega)]

/-- The call `printTree` on a tree that fails to load. -/
theorem printTree_fails {id : ID} {err : Error} (hl : repo.LoadTree id = .error err)
    (fuel : Nat) (pfx : GoString) (hf : 1 ≤ fuel) :
    printTree repo fuel pfx id = ([.loadTree id], .returned (some err)) := by
  obtain ⟨k, rfl⟩ : ∃ k, fuel = k + 1 := ⟨fuel - 1, by omega⟩
  simp only [printTree, hl]

/-- The nodes of a tree unfold to a forest when every subtree below them is acyclic. -/
theorem unfolds_of_acyclic (ns : List (Node τ))
    (h : ∀ n ∈ ns, ∀ s, n.Typ = "dir".toList → n.Subtree = some s →
      (∃ err, repo.LoadTree s = .error err) ∨
        ∃ t f, repo.LoadTree s = .ok t ∧ Unfolds repo t.Nodes f) :
    ∃ f, Unfolds repo ns f := by
  induction ns with
  | nil => exact ⟨.nil, .nil⟩
  | cons n ns ih =>
    obtain ⟨rest, hrest⟩ := ih fun m hm => h m (List.mem_cons_of_mem _ hm)
    by_cases hd : n.Typ = "dir".toList
    · cases hs : n.Subtree with
      | none => exact ⟨.leaf n rest, .leaf (fun _ => hs) hrest⟩
      | some s =>
        rcases h n (List.mem_cons_self _ _) s hd hs with ⟨err, he⟩ | ⟨t, f, ht, hf⟩
        · exact ⟨.broken n err rest, .broken hd hs he hrest⟩
        · exact ⟨.dir n f rest, .dir hd hs ht hf hrest⟩
    · exact ⟨.leaf n rest, .leaf (fun h' => absurd h' hd) hrest⟩

/-- An acyclic tree fails to load or unfolds to a forest. -/
theorem Acyclic.unfolds {id : ID} (h : Acyclic repo id) :
    (∃ err, repo.LoadTree id = .error err) ∨
      ∃ t f, repo.LoadTree id = .ok t ∧ Unfolds repo t.Nodes f := by
  induction h with
  | fails he => exact .inl ⟨_, he⟩
  | @loads id t ht _ ih =>
    obtain ⟨f, hf⟩ := unfolds_of_acyclic t.Nodes ih
    exact .inr ⟨t, f, ht, hf⟩

/-- A forest whose subtrees are all reachable from a root below which every tree loads has
no broken entry. -/
theorem Unfolds.firstError_eq_none {root : ID} (hall : AllLoad repo root)
    {ns : List (Node τ)} {f : Forest τ} (h : Unfolds repo ns f)
    (hr : ∀ n ∈ ns, ∀ s, n.Typ = "dir".toList → n.Subtree = some s → Reachable repo root s) :
    f.firstError = none := by
  induction h with
  | nil => rfl
  | leaf _ _ ih =>
    simp only [Forest.firstError]
    exact ih fun m hm => hr m (List.mem_cons_of_mem _ hm)
  | @dir n ns s t sub rest hd hs hl _ _ ihsub ihrest =>
    have hrs : Reachable repo root s := hr n (List.mem_cons_self _ _) s hd hs
    have h1 := ihsub fun m hm s' hd' hs' => Reachable.step hrs hl hm hd' hs'
    have h2 := ihrest fun m hm => hr m (List.mem_cons_of_mem _ hm)
    simp [Forest.firstError, h1, h2, Option.orElse]
  | @broken n ns s err rest hd hs hl _ _ =>
    obtain ⟨t, ht⟩ := hall s (hr n (List.mem_cons_self _ _) s hd hs)
    rw [hl] at ht
    cases ht

/-- Below a root from which every tree loads, the root unfolds to a forest without broken
entries. -/
theorem exists_forest {root : ID} (hac : Acyclic repo root) (hall : AllLoad repo root) :
    ∃ t f, repo.LoadTree root = .ok t ∧ Unfolds repo t.Nodes f ∧ f.firstError = none := by
  rcases hac.unfolds with ⟨err, he⟩ | ⟨t, f, ht, hf⟩
  · obtain ⟨t, ht⟩ := hall root .root
    rw [he] at ht
    cases ht
  · exact ⟨t, f, ht, hf, hf.firstError_eq_none hall
      fun m hm s hd hs => Reachable.step .root ht hm hd hs⟩

/-- Without a broken entry the printed entries of the traversal are the pre-order listing. -/
theorem printed_events_of_firstError_none (f : Forest τ) :
    ∀ pfx : GoString, f.firstError = none → printed (f.events pfx) = f.preorder pfx := by
  induction f with
  | nil => intro _ _; rfl
  | leaf n rest ih =>
    intro pfx h
    simp only [Forest.firstError] at h
    simp [Forest.events, Forest.preorder, printed, List.filterMap_cons] at ih ⊢
    exact ih pfx h
  | dir n sub rest ihs ihr =>
    intro pfx h
    have h1 : sub.firstError = none := by
      cases hfe : sub.firstError with
      | none => rfl
      | some e => simp [Forest.firstError, hfe, Option.orElse] at h
    have h2 : rest.firstError = none := by
      simpa [Forest.firstError, h1, Option.orElse] using h
    have e1 := ihs (Join pfx n.Name) h1
    have e2 := ihr pfx h2
    simp only [printed] at e1 e2
    simp [Forest.events, Forest.preorder, printed, List.filterMap_cons, h1,
      List.filterMap_append, e1, e2]
  | broken n err rest _ =>
    intro pfx h
    simp [Forest.firstError] at h

/-- The self-referential repository: `printTree` never returns, and loads once per level. -/
theorem printTree_selfRepo (fuel : Nat) :
    ∀ pfx : GoString, (printTree selfRepo fuel pfx 1).2 = .running ∧
      (loads (printTree selfRepo fuel pfx 1).1).length = fuel := by
  induction fuel with
  | zero => intro pfx; exact ⟨rfl, rfl⟩
  | succ k ih =>
    intro pfx
    have hl : selfRepo.LoadTree 1 = .ok ⟨[exNode "d" "dir" (some 1)]⟩ := rfl
    have hdesc : descends (exNode "d" "dir" (some 1)) = some 1 := rfl
    obtain ⟨h1, h2⟩ := ih (Join pfx (exNode "d" "dir" (some 1)).Name)
    rcases hr : printTree selfRepo k (Join pfx (exNode "d" "dir" (some 1)).Name) 1 with ⟨tr, o⟩
    rw [hr] at h1 h2
    simp only at h1 h2
    subst h1
    simp only [printTree, hl, printEntries, hdesc, hr]
    refine ⟨trivial, ?_⟩
    simp [loads, List.filterMap_cons, ← h2]

/-- The example repository is acyclic. -/
theorem exRepo_acyclic : Acyclic exRepo 1 := by
  refine .loads (t := ⟨[exNode "fileA" "file" none, exNode "dirB" "dir" (some 2),
      exNode "fileD" "file" none]⟩) rfl ?_
  intro n hn s hd hs
  simp only [List.mem_cons, List.mem_singleton, List.not_mem_nil, or_false] at hn
  rcases hn with rfl | rfl | rfl
  · cases hs
  · cases hs
    refine .loads (t := ⟨[exNode "fileC" "file" none]⟩) rfl ?_
    intro m hm s' _ hs'
    simp only [List.mem_singleton] at hm
    subst hm
    cases hs'
  · cases hs

/-- Every tree reachable in the example repository loads. -/
theorem exRepo_allLoad : AllLoad exRepo 1 := by
  have key : ∀ s, Reachable exRepo 1 s → s = 1 ∨ s = 2 := by
    intro s hs
    induction hs with
    | root => exact .inl rfl
    | @step id t n s _ hl hn hd hsub ih =>
      rcases ih with rfl | rfl
      · have ht : t = ⟨[exNode "fileA" "file" none, exNode "dirB" "dir" (some 2),
            exNode "fileD" "file" none]⟩ := by
          have : exRepo.LoadTree 1 = .ok ⟨[exNode "fileA" "file" none,
            exNode "dirB" "dir" (some 2), exNode "fileD" "file" none]⟩ := rfl
          rw [this] at hl
          cases hl
          rfl
        subst ht
        simp only [List.mem_cons, List.mem_singleton, List.not_mem_nil, or_false] at hn
        rcases hn with rfl | rfl | rfl
        · cases hsub
        · cases hsub; exact .inr rfl
        · cases hsub
      · have ht : t = ⟨[exNode "fileC" "file" none]⟩ := by
          have : exRepo.LoadTree 2 = .ok ⟨[exNode "fileC" "file" none]⟩ := rfl
          rw [this] at hl
          cases hl
          rfl
        subst ht
        simp only [List.mem_singleton] at hn
        subst hn
        cases hsub
  intro s hs
  rcases key s hs with rfl | rfl
  · exact ⟨_, rfl⟩
  · exact ⟨_, rfl⟩

/-! ### A traversal that meets a tree that fails to load -/

theorem Forest.preorder_length (f : Forest τ) :
    ∀ pfx : GoString, (f.preorder pfx).length = (f.preorder []).length := by
  induction f with
  | nil => intro _; rfl
  | leaf n rest ih => intro pfx; simp only [Forest.preorder, List.length_cons, ih pfx]
  | dir n sub rest ihs ihr =>
    intro pfx
    simp only [Forest.preorder, List.length_cons, List.length_append, ihr pfx,
      ihs (Join pfx n.Name), ihs (Join [] n.Name)]
  | broken n err rest ih => intro pfx; simp only [Forest.preorder, List.length_cons, ih pfx]

theorem Forest.firstError_dir_cases (n : Node τ) (sub rest : Forest τ) :
    (sub.firstError = none ∧ (Forest.dir n sub rest).firstError = rest.firstError) ∨
      (∃ e, sub.firstError = some e ∧ (Forest.dir n sub rest).firstError = some e) := by
  cases h : sub.firstError with
  | none => exact .inl ⟨rfl, by simp [Forest.firstError, h, Option.orElse]⟩
  | some e => exact .inr ⟨e, rfl, by simp [Forest.firstError, h, Option.orElse]⟩

theorem Forest.failIndex_eq_length (f : Forest τ) :
    ∀ pfx : GoString, f.firstError = none → f.failIndex = (f.preorder pfx).length := by
  induction f with
  | nil => intro _ _; rfl
  | leaf n rest ih =>
    intro pfx h
    simp only [Forest.firstError] at h
    simp only [Forest.failIndex, Forest.preorder, List.length_cons, ih pfx h]
  | dir n sub rest ihs ihr =>
    intro pfx h
    rcases Forest.firstError_dir_cases n sub rest with ⟨h1, h2⟩ | ⟨e, _, h2⟩
    · rw [h2] at h
      simp only [Forest.failIndex, h1, if_true, Forest.preorder, List.length_cons,
        List.length_append, ihr pfx h, sub.preorder_length (Join pfx n.Name)]
    · rw [h2] at h; cases h
  | broken n err rest _ => intro pfx h; simp [Forest.firstError] at h

theorem Forest.failIndex_lt_length (f : Forest τ) :
    ∀ (pfx : GoString) (e : Error), f.firstError = some e →
      f.failIndex < (f.preorder pfx).length := by
  induction f with
  | nil => intro _ e h; simp [Forest.firstError] at h
  | leaf n rest ih =>
    intro pfx e h
    simp only [Forest.firstError] at h
    simp only [Forest.failIndex, Forest.preorder, List.length_cons]
    have := ih pfx e h
    omega
  | dir n sub rest ihs ihr =>
    intro pfx e h
    rcases Forest.firstError_dir_cases n sub rest with ⟨h1, h2⟩ | ⟨e', h1, _⟩
    · rw [h2] at h
      have := ihr pfx e h
      simp only [Forest.failIndex, h1, if_true, Forest.preorder, List.length_cons,
        List.length_append, sub.preorder_length (Join pfx n.Name)]
      omega
    · have := ihs (Join pfx n.Name) e' h1
      simp only [Forest.failIndex, h1, Forest.preorder, List.length_cons, List.length_append]
      simp only [reduceCtorEq, if_false]
      omega
  | broken n err rest _ =>
    intro pfx e _
    simp [Forest.failIndex, Forest.preorder]

/-- With a broken entry the printed entries of the traversal are the pre-order listing up
to and including the first broken entry. -/
theorem printed_events_of_firstError_some (f : Forest τ) :
    ∀ (pfx : GoString) (e : Error), f.firstError = some e →
      printed (f.events pfx) = (f.preorder pfx).take (f.failIndex + 1) := by
  induction f with
  | nil => intro _ e h; simp [Forest.firstError] at h
  | leaf n rest ih =>
    intro pfx e h
    simp only [Forest.firstError] at h
    have := ih pfx e h
    simp only [printed] at this
    simp only [Forest.events, Forest.preorder, Forest.failIndex, printed, List.filterMap_cons,
      List.take_succ_cons, this]
  | dir n sub rest ihs ihr =>
    intro pfx e h
    rcases Forest.firstError_dir_cases n sub rest with ⟨h1, h2⟩ | ⟨e', h1, _⟩
    · rw [h2] at h
      have hr := ihr pfx e h
      have hs := printed_events_of_firstError_none sub (Join pfx n.Name) h1
      simp only [printed] at hr hs
      simp only [Forest.events, Forest.preorder, Forest.failIndex, printed, h1, if_true,
        List.filterMap_cons, List.filterMap_append, List.take_succ_cons, hr, hs,
        List.take_append_eq_append_take, sub.preorder_length (Join pfx n.Name)]
      congr 2
      · rw [List.take_of_length_le]
        rw [sub.preorder_length (Join pfx n.Name)]
        omega
      · congr 1
        omega
    · have hs := ihs (Join pfx n.Name) e' h1
      have hlt := sub.failIndex_lt_length (Join pfx n.Name) e' h1
      simp only [printed] at hs
      simp only [Forest.events, Forest.preorder, Forest.failIndex, printed, h1,
        List.filterMap_cons, List.filterMap_append, List.take_succ_cons, hs,
        List.take_append_eq_append_take, reduceCtorEq, if_false, List.filterMap_nil,
        List.append_nil]
      have : sub.failIndex + 1 - (Forest.preorder (Join pfx n.Name) sub).length = 0 := by omega
      rw [this, List.take_zero, List.append_nil]
  | broken n err rest _ =>
    intro pfx e _
    simp [Forest.events, Forest.preorder, Forest.failIndex, printed, List.filterMap_cons]

/-- The entry at the position of the first broken entry is a directory whose subtree fails
to load with the first error. -/
theorem Unfolds.getElem_failIndex {ns : List (Node τ)} {f : Forest τ} (h : Unfolds repo ns f) :
    ∀ (pfx : GoString) (e : Error), f.firstError = some e →
      ∃ p n s, (f.preorder pfx)[f.failIndex]? = some (p, n) ∧ n.Typ = "dir".toList ∧
        n.Subtree = some s ∧ repo.LoadTree s = .error e := by
  induction h with
  | nil => intro _ e h; simp [Forest.firstError] at h
  | @leaf n ns rest hn _ ih =>
    intro pfx e h
    simp only [Forest.firstError] at h
    obtain ⟨p, m, s, h1, h2⟩ := ih pfx e h
    exact ⟨p, m, s, by simpa [Forest.preorder, Forest.failIndex] using h1, h2⟩
  | @dir n ns s t sub rest hd hs hl _ _ ihsub ihrest =>
    intro pfx e h
    rcases Forest.firstError_dir_cases n sub rest with ⟨h1, h2⟩ | ⟨e', h1, h2⟩
    · rw [h2] at h
      obtain ⟨p, m, s', h3, h4⟩ := ihrest pfx e h
      refine ⟨p, m, s', ?_, h4⟩
      simp only [Forest.preorder, Forest.failIndex, h1, if_true, List.getElem?_cons_succ]
      rw [List.getElem?_append_right (by rw [sub.preorder_length (Join pfx n.Name)]; omega)]
      rw [sub.preorder_length (Join pfx n.Name), Nat.add_sub_cancel_left]
      exact h3
    · rw [h2] at h
      cases h
      obtain ⟨p, m, s', h3, h4⟩ := ihsub (Join pfx n.Name) e h1
      refine ⟨p, m, s', ?_, h4⟩
      simp only [Forest.preorder, Forest.failIndex, h1, reduceCtorEq, if_false,
        List.getElem?_cons_succ]
      rw [List.getElem?_append_left (sub.failIndex_lt_length (Join pfx n.Name) e h1)]
      exact h3
  | @broken n ns s err rest hd hs hl _ _ =>
    intro pfx e h
    simp only [Forest.firstError, Option.some.injEq] at h
    subst h
    exact ⟨pfx, n, s, by simp [Forest.preorder, Forest.failIndex], hd, hs, hl⟩

/-- The subtree of every directory listed before the first broken entry loads. -/
theorem Unfolds.loads_before_failIndex {ns : List (Node τ)} {f : Forest τ}
    (h : Unfolds repo ns f) :
    ∀ (pfx : GoString), ∀ q ∈ (f.preorder pfx).take f.failIndex, ∀ s,
      q.2.Typ = "dir".toList → q.2.Subtree = some s → ∃ t, repo.LoadTree s = .ok t := by
  induction h with
  | nil => intro _ q hq; simp [Forest.preorder] at hq
  | @leaf n ns rest hn _ ih =>
    intro pfx q hq s hd hs
    simp only [Forest.preorder, Forest.failIndex, List.take_succ_cons, List.mem_cons] at hq
    rcases hq with rfl | hq
    · rw [hn hd] at hs; cases hs
    · exact ih pfx q hq s hd hs
  | @dir n ns s t sub rest hd hs hl _ _ ihsub ihrest =>
    intro pfx q hq s' hd' hs'
    rcases Forest.firstError_dir_cases n sub rest with ⟨h1, _⟩ | ⟨e', h1, _⟩
    · simp only [Forest.preorder, Forest.failIndex, h1, if_true, List.take_succ_cons,
        List.mem_cons, List.take_append_eq_append_take, List.mem_append] at hq
      rcases hq with rfl | hq | hq
      · rw [hs] at hs'; cases hs'; exact ⟨t, hl⟩
      · have hq' := List.mem_of_mem_take hq
        have := ihsub (Join pfx n.Name) q
          (by rw [sub.failIndex_eq_length (Join pfx n.Name) h1, List.take_length]; exact hq')
        exact this s' hd' hs'
      · rw [sub.preorder_length (Join pfx n.Name), Nat.add_sub_cancel_left] at hq
        exact ihrest pfx q hq s' hd' hs'
    · have hlt := sub.failIndex_lt_length (Join pfx n.Name) e' h1
      simp only [Forest.preorder, Forest.failIndex, h1, reduceCtorEq, if_false,
        List.take_succ_cons, List.mem_cons, List.take_append_eq_append_take,
        List.mem_append] at hq
      rcases hq with rfl | hq | hq
      · rw [hs] at hs'; cases hs'; exact ⟨t, hl⟩
      · exact ihsub (Join pfx n.Name) q hq s' hd' hs'
      · have : sub.failIndex - (Forest.preorder (Join pfx n.Name) sub).length = 0 := by omega
        rw [this] at hq
        simp at hq
  | @broken n ns s err rest hd hs hl _ _ =>
    intro pfx q hq
    simp [Forest.failIndex] at hq

/-- A tree reachable from `a` is `a` itself or is reachable from the subtree of a directory
node of `a`. -/
theorem Reachable.head {a b : ID} (h : Reachable repo a b) :
    a = b ∨ ∃ t n s, repo.LoadTree a = .ok t ∧ n ∈ t.Nodes ∧ n.Typ = "dir".toList ∧
      n.Subtree = some s ∧ Reachable repo s b := by
  induction h with
  | root => exact .inl rfl
  | @step id t n s _ hl hn hd hs ih =>
    rcases ih with rfl | ⟨t0, n0, s0, h1, h2, h3, h4, h5⟩
    · exact .inr ⟨t, n, s, hl, hn, hd, hs, .root⟩
    · exact .inr ⟨t0, n0, s0, h1, h2, h3, h4, .step h5 hl hn hd hs⟩

/-- Below a forest without a broken entry every reachable tree loads. -/
theorem Unfolds.reachable_load {ns : List (Node τ)} {f : Forest τ} (h : Unfolds repo ns f) :
    f.firstError = none → ∀ n ∈ ns, ∀ s, n.Typ = "dir".toList → n.Subtree = some s →
      ∀ s', Reachable repo s s' → ∃ t, repo.LoadTree s' = .ok t := by
  induction h with
  | nil => intro _ n hn; cases hn
  | @leaf n ns rest hn _ ih =>
    intro hfe m hm s hd hs
    simp only [Forest.firstError] at hfe
    rcases List.mem_cons.1 hm with rfl | hm
    · rw [hn hd] at hs; cases hs
    · exact ih hfe m hm s hd hs
  | @dir n ns s t sub rest hd hs hl _ _ ihsub ihrest =>
    intro hfe m hm s0 hd0 hs0 s' hr
    rcases Forest.firstError_dir_cases n sub rest with ⟨h1, h2⟩ | ⟨e', _, h2⟩
    · rw [h2] at hfe
      rcases List.mem_cons.1 hm with rfl | hm
      · rw [hs] at hs0
        cases hs0
        rcases hr.head with rfl | ⟨t0, n0, s1, g1, g2, g3, g4, g5⟩
        · exact ⟨t, hl⟩
        · rw [hl] at g1
          cases g1
          exact ihsub h1 n0 g2 s1 g3 g4 s' g5
      · exact ihrest hfe m hm s0 hd0 hs0 s' hr
    · rw [h2] at hfe; cases hfe
  | @broken n ns s err rest hd hs hl _ _ =>
    intro hfe
    simp [Forest.firstError] at hfe

/-! ### Every run of `printTree` -/

theorem loads_append (a b : List (Event τ)) : loads (a ++ b) = loads a ++ loads b := by
  simp [loads, List.filterMap_append]

theorem LoadsOk.cons_printNode {p : GoString} {n : Node τ} {tr : List (Event τ)}
    (h : LoadsOk repo tr) : LoadsOk repo (.printNode p n :: tr) := h

theorem LoadsOk.append {a b : List (Event τ)} (ha : LoadsOk repo a) (hb : LoadsOk repo b) :
    LoadsOk repo (a ++ b) := by
  intro s hs
  rw [loads_append, List.mem_append] at hs
  exact hs.elim (ha s) (hb s)

theorem FailsAt.prepend {a tr : List (Event τ)} {e : Error} (ha : LoadsOk repo a)
    (h : FailsAt repo tr e) : FailsAt repo (a ++ tr) e := by
  obtain ⟨pre, p, n, s, h1, h2, h3, h4, h5⟩ := h
  exact ⟨a ++ pre, p, n, s, by rw [h1, List.append_assoc], h2, h3, h4, ha.append h5⟩

/-- The loop of `printTree`: when it returns an error the trace ends with the load that
failed, right after the line of its directory node; in every other case no load of the trace
has failed. -/
theorem printEntries_inv (recurse : GoString → ID → List (Event τ) × Outcome)
    (hrec : ∀ pfx id,
      (∀ e, (recurse pfx id).2 = .returned (some e) →
        ((recurse pfx id).1 = [.loadTree id] ∧ repo.LoadTree id = .error e) ∨
          FailsAt repo (recurse pfx id).1 e) ∧
      ((∀ e, (recurse pfx id).2 ≠ .returned (some e)) → LoadsOk repo (recurse pfx id).1))
    (pfx : GoString) (ns : List (Node τ)) :
    (∀ e, (printEntries recurse pfx ns).2 = .returned (some e) →
      FailsAt repo (printEntries recurse pfx ns).1 e) ∧
    ((∀ e, (printEntries recurse pfx ns).2 ≠ .returned (some e)) →
      LoadsOk repo (printEntries recurse pfx ns).1) := by
  induction ns with
  | nil =>
    refine ⟨fun e h => ?_, fun _ s hs => ?_⟩
    · cases h
    · cases hs
  | cons entry rest ih =>
    cases hdesc : descends entry with
    | none =>
      simp only [printEntries, hdesc]
      refine ⟨fun e h => ?_, fun h => ?_⟩
      · exact FailsAt.prepend (a := [.printNode pfx entry]) (fun s hs => by cases hs) (ih.1 e h)
      · exact (ih.2 h).cons_printNode
    | some sub =>
      have hT := hrec (Join pfx entry.Name) sub
      rcases hr : recurse (Join pfx entry.Name) sub with ⟨tr, o⟩
      rw [hr] at hT
      simp only at hT
      obtain ⟨hd, hs⟩ := descends_some_iff.1 hdesc
      cases o with
      | returned err =>
        cases err with
        | none =>
          have hok : LoadsOk repo tr := hT.2 (fun e h => by cases h)
          simp only [printEntries, hdesc, hr]
          refine ⟨fun e h => ?_, fun h => ?_⟩
          · have := FailsAt.prepend (a := .printNode pfx entry :: tr) hok.cons_printNode
              (ih.1 e h)
            simpa using this
          · exact (hok.append (ih.2 h)).cons_printNode
        | some e0 =>
          simp only [printEntries, hdesc, hr]
          refine ⟨fun e h => ?_, fun h => absurd rfl (h e0)⟩
          cases h
          rcases hT.1 e0 rfl with ⟨h1, h2⟩ | h1
          · subst h1
            exact ⟨[], pfx, entry, sub, rfl, hd, hs, h2, fun s hs => by cases hs⟩
          · exact FailsAt.prepend (a := [.printNode pfx entry]) (fun s hs => by cases hs) h1
      | exited code msg =>
        simp only [printEntries, hdesc, hr]
        refine ⟨fun e h => (by cases h), fun _ => ?_⟩
        exact (hT.2 (fun e h => by cases h)).cons_printNode
      | panicked =>
        simp only [printEntries, hdesc, hr]
        refine ⟨fun e h => (by cases h), fun _ => ?_⟩
        exact (hT.2 (fun e h => by cases h)).cons_printNode
      | running =>
        simp only [printEntries, hdesc, hr]
        refine ⟨fun e h => (by cases h), fun _ => ?_⟩
        exact (hT.2 (fun e h => by cases h)).cons_printNode

/-- Every run of `printTree`: when it returns an error the trace ends with the load that
failed, which is the load of the root or comes right after the line of its directory node;
in every other case no load of the trace has failed. -/
theorem printTree_inv (fuel : Nat) :
    ∀ (pfx : GoString) (id : ID),
      (∀ e, (printTree repo fuel pfx id).2 = .returned (some e) →
        ((printTree repo fuel pfx id).1 = [.loadTree id] ∧ repo.LoadTree id = .error e) ∨
          FailsAt repo (printTree repo fuel pfx id).1 e) ∧
      ((∀ e, (printTree repo fuel pfx id).2 ≠ .returned (some e)) →
        LoadsOk repo (printTree repo fuel pfx id).1) := by
  induction fuel with
  | zero =>
    intro pfx id
    exact ⟨fun e h => (by cases h), fun _ s hs => (by cases hs)⟩
  | succ k ih =>
    intro pfx id
    cases hl : repo.LoadTree id with
    | error err =>
      simp only [printTree, hl]
      refine ⟨fun e h => ?_, fun h => absurd rfl (h err)⟩
      cases h
      simp
    | ok t =>
      have hE := printEntries_inv (printTree repo k) ih pfx t.Nodes
      have hroot : LoadsOk repo [.loadTree id] := by
        intro s hs
        simp only [loads, List.filterMap_cons, List.filterMap_nil, List.mem_singleton] at hs
        subst hs
        exact ⟨t, hl⟩
      simp only [printTree, hl]
      refine ⟨fun e h => .inr ?_, fun h => ?_⟩
      · exact FailsAt.prepend (a := [.loadTree id]) hroot (hE.1 e h)
      · exact LoadsOk.append (a := [.loadTree id]) hroot (hE.2 h)

theorem printed_append (a b : List (Event τ)) : printed (a ++ b) = printed a ++ printed b := by
  simp [printed, List.filterMap_append]

theorem entryEvents_of_descends_none {n : Node τ} (p : GoString) (h : descends n = none) :
    entryEvents (p, n) = [.printNode p n] := by
  unfold descends at h
  unfold entryEvents
  by_cases hd : n.Typ = "dir".toList
  · rw [if_pos hd] at h
    simp only [if_pos hd, h]
    rfl
  · simp only [if_neg hd]

theorem entryEvents_of_descends_some {n : Node τ} {s : ID} (p : GoString)
    (h : descends n = some s) : entryEvents (p, n) = [.printNode p n, .loadTree s] := by
  obtain ⟨hd, hs⟩ := descends_some_iff.1 h
  unfold entryEvents
  simp only [if_pos hd, hs]
  rfl

/-- The loop of `printTree`, when it returns nil: the trace is, entry by entry, the line of
the entry and the load of its subtree. -/
theorem printEntries_trace (recurse : GoString → ID → List (Event τ) × Outcome)
    (hrec : ∀ pfx id, (recurse pfx id).2 = .returned none →
      (recurse pfx id).1 = .loadTree id :: (printed (recurse pfx id).1).flatMap entryEvents)
    (pfx : GoString) (ns : List (Node τ)) :
    (printEntries recurse pfx ns).2 = .returned none →
      (printEntries recurse pfx ns).1 =
        (printed (printEntries recurse pfx ns).1).flatMap entryEvents := by
  induction ns with
  | nil => intro _; rfl
  | cons entry rest ih =>
    cases hdesc : descends entry with
    | none =>
      simp only [printEntries, hdesc]
      intro h
      have hp : printed (Event.printNode pfx entry :: (printEntries recurse pfx rest).1) =
          (pfx, entry) :: printed (printEntries recurse pfx rest).1 := rfl
      rw [hp, List.flatMap_cons, ← ih h, entryEvents_of_descends_none pfx hdesc]
      rfl
    | some sub =>
      have hT := hrec (Join pfx entry.Name) sub
      rcases hr : recurse (Join pfx entry.Name) sub with ⟨tr, o⟩
      rw [hr] at hT
      simp only at hT
      rcases o with (_ | e) | _ | _ | _ <;> simp only [printEntries, hdesc, hr]
      · intro h
        have hp : printed (Event.printNode pfx entry ::
            (tr ++ (printEntries recurse pfx rest).1)) =
            (pfx, entry) :: (printed tr ++ printed (printEntries recurse pfx rest).1) := by
          rw [← printed_append]
          rfl
        rw [hp, List.flatMap_cons, List.flatMap_append, ← ih h,
          entryEvents_of_descends_some pfx hdesc]
        have hT' := hT rfl
        simp only [List.cons_append, List.nil_append]
        congr 1
        exact congrArg (fun l => l ++ (printEntries recurse pfx rest).1) hT'
      all_goals
        intro h
        cases h

/-- Every run of `printTree` that returns nil: the trace is the load of the root followed,
entry by entry, by the line of the entry and the load of its subtree. -/
theorem printTree_trace (fuel : Nat) :
    ∀ (pfx : GoString) (id : ID), (printTree repo fuel pfx id).2 = .returned none →
      (printTree repo fuel pfx id).1 =
        .loadTree id :: (printed (printTree repo fuel pfx id).1).flatMap entryEvents := by
  induction fuel with
  | zero => intro pfx id h; cases h
  | succ k ih =>
    intro pfx id
    cases hl : repo.LoadTree id with
    | error err =>
      simp only [printTree, hl]
      intro h
      cases h
    | ok t =>
      simp only [printTree, hl]
      intro h
      have := printEntries_trace (printTree repo k) ih pfx t.Nodes h
      have hp : printed (Event.loadTree id :: (printEntries (printTree repo k) pfx t.Nodes).1) =
          printed (printEntries (printTree repo k) pfx t.Nodes).1 := rfl
      rw [hp, ← this]

/-- A call of `printTree` returns or is still running: it neither ends the process nor
dereferences a nil pointer. -/
theorem printTree_outcome (fuel : Nat) :
    ∀ (pfx : GoString) (id : ID),
      (∃ err, (printTree repo fuel pfx id).2 = .returned err) ∨
        (printTree repo fuel pfx id).2 = .running := by
  induction fuel with
  | zero => intro pfx id; exact .inr rfl
  | succ k ih =>
    intro pfx id
    have loop : ∀ ns : List (Node τ),
        (∃ err, (printEntries (printTree repo k) pfx ns).2 = .returned err) ∨
          (printEntries (printTree repo k) pfx ns).2 = .running := by
      intro ns
      induction ns with
      | nil => exact .inl ⟨none, rfl⟩
      | cons entry rest ihn =>
        cases hdesc : descends entry with
        | none =>
          simp only [printEntries, hdesc]
          exact ihn
        | some sub =>
          have hT := ih (Join pfx entry.Name) sub
          rcases hr : printTree repo k (Join pfx entry.Name) sub with ⟨tr, o⟩
          rw [hr] at hT
          simp only at hT
          rcases o with (_ | e) | _ | _ | _ <;> simp only [printEntries, hdesc, hr]
          · exact ihn
          · exact .inl ⟨some e, rfl⟩
          · rcases hT with ⟨err, h⟩ | h <;> cases h
          · rcases hT with ⟨err, h⟩ | h <;> cases h
          · exact .inr trivial
    cases hl : repo.LoadTree id with
    | error err =>
      simp only [printTree, hl]
      exact .inl ⟨some err, rfl⟩
    | ok t =>
      simp only [printTree, hl]
      exact loop t.Nodes

theorem mem_loads {s : ID} {tr : List (Event τ)} : s ∈ loads tr ↔ .loadTree s ∈ tr := by
  induction tr with
  | nil => simp [loads]
  | cons ev tr ih =>
    cases ev <;> simp [loads, List.filterMap_cons] at ih ⊢ <;> simp [ih]

/-- A run of `printTree` that reaches a tree whose load fails returns the error of that
load, and the load is the last event of the trace. -/
theorem printTree_failed_load (fuel : Nat) (pfx : GoString) (root s : ID) (err : Error)
    (hmem : .loadTree s ∈ (printTree repo fuel pfx root).1)
    (hfail : repo.LoadTree s = .error err) :
    (printTree repo fuel pfx root).2 = .returned (some err) ∧
    ∃ pre, (printTree repo fuel pfx root).1 = pre ++ [.loadTree s] ∧ LoadsOk repo pre ∧
      (pre = [] ∧ s = root ∨
        ∃ (pre0 : List (Event τ)) (p : GoString) (n : Node τ),
          pre = pre0 ++ [Event.printNode p n] ∧ n.Typ = "dir".toList ∧ n.Subtree = some s) := by
  obtain ⟨h1, h2⟩ := printTree_inv (τ := τ) fuel pfx root
  have hs : s ∈ loads (printTree repo fuel pfx root).1 := mem_loads.2 hmem
  by_cases hret : ∃ e, (printTree repo fuel pfx root).2 = .returned (some e)
  · obtain ⟨e, he⟩ := hret
    rcases h1 e he with ⟨h3, h4⟩ | ⟨pre, p, n, s0, h3, h4, h5, h6, h7⟩
    · rw [h3] at hmem
      simp only [List.mem_singleton, Event.loadTree.injEq] at hmem
      subst hmem
      rw [hfail] at h4
      cases h4
      exact ⟨he, [], h3, fun s hs => (by cases hs), .inl ⟨rfl, rfl⟩⟩
    · rw [h3, loads_append, List.mem_append] at hs
      rcases hs with hs | hs
      · obtain ⟨t, ht⟩ := h7 s hs
        rw [hfail] at ht
        cases ht
      · simp only [loads, List.filterMap_cons, List.filterMap_nil,
          List.mem_singleton] at hs
        subst hs
        rw [hfail] at h6
        cases h6
        refine ⟨he, pre ++ [.printNode p n], by rw [h3]; simp, ?_,
          .inr ⟨pre, p, n, rfl, h4, h5⟩⟩
        exact h7.append (fun s hs => by cases hs)
  · obtain ⟨t, ht⟩ := h2 (fun e he => hret ⟨e, he⟩) s hs
    rw [hfail] at ht
    cases ht

/-- The broken example repository is acyclic. -/
theorem brokenRepo_acyclic : Acyclic brokenRepo 1 := by
  refine .loads (t := ⟨[exNode "fileA" "file" none, exNode "dirB" "dir" (some 2),
      exNode "fileD" "file" none]⟩) rfl ?_
  intro n hn s hd hs
  simp only [List.mem_cons, List.mem_singleton, List.not_mem_nil, or_false] at hn
  rcases hn with rfl | rfl | rfl
  · cases hs
  · cases hs
    exact Acyclic.fails (rfl : brokenRepo.LoadTree 2 = .error notFound)
  · cases hs

/-- In the broken example repository tree 2 is reachable, and fails to load. -/
theorem brokenRepo_reachable :
    ∃ s err, Reachable brokenRepo 1 s ∧ brokenRepo.LoadTree s = .error err :=
  ⟨2, notFound,
    .step (t := ⟨[exNode "fileA" "file" none, exNode "dirB" "dir" (some 2),
      exNode "fileD" "file" none]⟩) (n := exNode "dirB" "dir" (some 2)) .root rfl
      (by simp) rfl rfl, rfl⟩

/-! ### The paths of the short listing -/

theorem listing_eq_map_printed (F : Fmt τ) (lsOptions : LsOptions) (tr : List (Event τ)) :
    listing F lsOptions tr =
      (printed tr).map fun q => F.printf (printNode F lsOptions q.1 q.2 ++ ['\n']) := by
  induction tr with
  | nil => rfl
  | cons ev tr ih =>
    simp only [listing, printed] at ih
    cases ev <;> simp [listing, printed, List.filterMap_cons, Event.line, ih]

/-- With file names throughout, the directory path of every entry of the pre-order listing
is the joined names of its ancestors. -/
theorem Forest.preorder_eq_withAncestors (f : Forest τ) :
    ∀ anc : List GoString, f.NamesValid ValidName → (∀ a ∈ anc, ValidName a) →
      f.preorder (stringsJoin ['/'] anc) =
        (f.withAncestors anc).map fun q => (stringsJoin ['/'] q.1, q.2) := by
  induction f with
  | nil => intro _ _ _; rfl
  | leaf n rest ih =>
    intro anc hv hanc
    simp only [Forest.preorder, Forest.withAncestors, List.map_cons, ih anc hv.2 hanc]
  | dir n sub rest ihs ihr =>
    intro anc hv hanc
    have hanc' : ∀ a ∈ anc ++ [n.Name], ValidName a := by
      intro a ha
      rcases List.mem_append.1 ha with h | h
      · exact hanc a h
      · rw [List.mem_singleton.1 h]; exact hv.1
    simp only [Forest.preorder, Forest.withAncestors, List.map_cons, List.map_append,
      Join_names anc n.Name hanc hv.1, ihs (anc ++ [n.Name]) hv.2.1 hanc', ihr anc hv.2.2 hanc]
  | broken n err rest ih =>
    intro anc hv hanc
    simp only [Forest.preorder, Forest.withAncestors, List.map_cons, ih anc hv.2 hanc]

theorem Forest.NamesValid.mono {P Q : GoString → Prop} (hPQ : ∀ name, P name → Q name)
    (f : Forest τ) : f.NamesValid P → f.NamesValid Q := by
  induction f with
  | nil => intro _; trivial
  | leaf n rest ih => intro h; exact ⟨hPQ _ h.1, ih h.2⟩
  | dir n sub rest ihs ihr => intro h; exact ⟨hPQ _ h.1, ihs h.2.1, ihr h.2.2⟩
  | broken n err rest ih => intro h; exact ⟨hPQ _ h.1, ih h.2⟩

theorem Forest.withAncestors_valid {P : GoString → Prop} (f : Forest τ) :
    ∀ anc : List GoString, f.NamesValid P → (∀ a ∈ anc, P a) →
      ∀ q ∈ f.withAncestors anc, (∀ a ∈ q.1, P a) ∧ P q.2.Name := by
  induction f with
  | nil => intro _ _ _ q hq; cases hq
  | leaf n rest ih =>
    intro anc hv hanc q hq
    rcases List.mem_cons.1 hq with rfl | hq
    · exact ⟨hanc, hv.1⟩
    · exact ih anc hv.2 hanc q hq
  | dir n sub rest ihs ihr =>
    intro anc hv hanc q hq
    have hanc' : ∀ a ∈ anc ++ [n.Name], P a := by
      intro a ha
      rcases List.mem_append.1 ha with h | h
      · exact hanc a h
      · rw [List.mem_singleton.1 h]; exact hv.1
    simp only [Forest.withAncestors, List.mem_cons, List.mem_append] at hq
    rcases hq with rfl | hq | hq
    · exact ⟨hanc, hv.1⟩
    · exact ihs (anc ++ [n.Name]) hv.2.1 hanc' q hq
    · exact ihr anc hv.2.2 hanc q hq
  | broken n err rest ih =>
    intro anc hv hanc q hq
    rcases List.mem_cons.1 hq with rfl | hq
    · exact ⟨hanc, hv.1⟩
    · exact ih anc hv.2 hanc q hq

theorem not_mem_stringsJoin {c : Char} {sep : GoString} (hsep : c ∉ sep) :
    ∀ names : List GoString, (∀ name ∈ names, c ∉ name) → c ∉ stringsJoin sep names := by
  intro names
  induction names with
  | nil => intro _ h; cases h
  | cons a rest ih =>
    intro hall
    cases rest with
    | nil => exact hall a (List.mem_cons_self _ _)
    | cons b rest2 =>
      have h1 := hall a (List.mem_cons_self _ _)
      have h2 := ih fun nm hnm => hall nm (List.mem_cons_of_mem _ hnm)
      simp only [stringsJoin, List.mem_append, not_or]
      exact ⟨⟨h1, hsep⟩, h2⟩

/-- The short listing of a forest of plain file names: each line is the names of the
ancestors and the own name, joined with the separator. -/
theorem listing_short_of_unfolds (F : Fmt τ) (hF : F.Literal) (lsOptions : LsOptions)
    (hshort : lsOptions.ListLong = false) {root : ID} {t : Tree τ} {f : Forest τ}
    (hl : repo.LoadTree root = .ok t) (hf : Unfolds repo t.Nodes f)
    (hv : f.NamesValid PlainName) (fuel : Nat) (hfuel : f.depth + 1 ≤ fuel) :
    ∃ m, listing F lsOptions (printTree repo fuel [] root).1 =
        ((f.withAncestors []).take m).map (fun q => joinedPath q.1 q.2.Name ++ ['\n']) ∧
      (f.firstError = none → m = (f.withAncestors []).length) := by
  have hv' : f.NamesValid ValidName := Forest.NamesValid.mono (fun _ h => h.1) f hv
  have hpre : f.preorder [] = (f.withAncestors []).map fun q => (stringsJoin ['/'] q.1, q.2) :=
    f.preorder_eq_withAncestors [] hv' (fun a ha => by cases ha)
  have hline : ∀ m, (((f.withAncestors []).take m).map
      fun q => (stringsJoin ['/'] q.1, q.2)).map
        (fun q => F.printf (printNode F lsOptions q.1 q.2 ++ ['\n'])) =
      ((f.withAncestors []).take m).map (fun q => joinedPath q.1 q.2.Name ++ ['\n']) := by
    intro m
    rw [List.map_map]
    apply List.map_congr_left
    intro q hq
    obtain ⟨h1, h2⟩ := f.withAncestors_valid [] hv (fun a ha => by cases ha) q
      (List.mem_of_mem_take hq)
    have hplain : '%' ∉ joinedPath q.1 q.2.Name ++ ['\n'] := by
      intro hmem
      rcases List.mem_append.1 hmem with h | h
      · refine not_mem_stringsJoin (by decide) (q.1 ++ [q.2.Name]) ?_ h
        intro name hname
        rcases List.mem_append.1 hname with h' | h'
        · exact (h1 name h').2
        · rw [List.mem_singleton.1 h']; exact h2.2
      · exact absurd h (by decide)
    simp only [Function.comp, printNode, hshort, Bool.not_false, if_true,
      Join_names q.1 q.2.Name (fun a ha => (h1 a ha).1) h2.1]
    exact hF _ hplain
  have hprinted : printed (printTree repo fuel [] root).1 = printed (f.events []) := by
    rw [printTree_unfolds hl hf fuel [] hfuel]
    rfl
  rw [listing_eq_map_printed, hprinted]
  cases hfe : f.firstError with
  | none =>
    refine ⟨(f.withAncestors []).length, ?_, fun _ => rfl⟩
    rw [printed_events_of_firstError_none f [] hfe, hpre, ← hline, List.take_length]
  | some e =>
    refine ⟨f.failIndex + 1, ?_, fun h => by cases h⟩
    rw [printed_events_of_firstError_some f [] e hfe, hpre, ← hline]
    simp only [List.map_take]

/-- The example forest is the forest of the example repository. -/
theorem exRepo_unfolds :
    Unfolds exRepo [exNode "fileA" "file" none, exNode "dirB" "dir" (some 2),
      exNode "fileD" "file" none] exForest :=
  .leaf (fun h => absurd h (by decide))
    (.dir (s := 2) (t := ⟨[exNode "fileC" "file" none]⟩) rfl rfl rfl
      (.leaf (fun h => absurd h (by decide)) .nil)
      (.leaf (fun h => absurd h (by decide)) .nil))

/-- The names of the example forest are file names. -/
theorem exForest_namesValid : exForest.NamesValid PlainName :=
  ⟨by decide, by decide, ⟨by decide, trivial⟩, by decide, trivial⟩

end Traversal

/-! ## The runs of `runLs` -/

section Run

variable {τ G : Type} (F : Fmt τ) (OpenRepository : G → Except Error (Repository τ))
  (lsOptions : LsOptions) (fuel : Nat) (gopts : G) (args : List GoString)

/-- The traces of `printTree` hold loads of trees and listing lines only. -/
theorem printTree_isTraversal (repo : Repository τ) (fuel : Nat) :
    ∀ (pfx : GoString) (id : ID), ∀ ev ∈ (printTree repo fuel pfx id).1, ev.IsTraversal := by
  induction fuel with
  | zero => intro pfx id ev hev; cases hev
  | succ k ih =>
    intro pfx id
    have loop : ∀ ns : List (Node τ),
        ∀ ev ∈ (printEntries (printTree repo k) pfx ns).1, ev.IsTraversal := by
      intro ns
      induction ns with
      | nil => intro ev hev; cases hev
      | cons entry rest ihn =>
        cases hdesc : descends entry with
        | none =>
          simp only [printEntries, hdesc, List.mem_cons]
          rintro ev (rfl | hev)
          · trivial
          · exact ihn ev hev
        | some sub =>
          have hT := ih (Join pfx entry.Name) sub
          rcases hr : printTree repo k (Join pfx entry.Name) sub with ⟨tr, o⟩
          rw [hr] at hT
          simp only at hT
          rcases o with (_ | e) | _ | _ | _ <;>
            simp only [printEntries, hdesc, hr, List.mem_cons, List.mem_append]
          · rintro ev (rfl | hev | hev)
            · trivial
            · exact hT ev hev
            · exact ihn ev hev
          all_goals
            rintro ev (rfl | hev)
            · trivial
            · exact hT ev hev
    cases hl : repo.LoadTree id with
    | error err =>
      simp only [printTree, hl, List.mem_singleton]
      rintro ev rfl
      trivial
    | ok t =>
      simp only [printTree, hl, List.mem_cons]
      rintro ev (rfl | hev)
      · trivial
      · exact loop t.Nodes ev hev

/-- The runs of `runLs`, case by case: the argument check, the opening of the repository,
the load of the index, the resolution of the snapshot reference, the load of the snapshot
and the traversal. -/
theorem runLs_cases :
    ((args.length < 1 ∨ 2 < args.length) ∧
      runLs F OpenRepository lsOptions fuel gopts args =
        ([], .returned (some (Fatal "no snapshot ID given".toList)))) ∨
    (1 ≤ args.length ∧ args.length ≤ 2 ∧
      ((∃ e, OpenRepository gopts = .error e ∧
          runLs F OpenRepository lsOptions fuel gopts args =
            ([.openRepository], .returned (some e))) ∨
        ∃ repo, OpenRepository gopts = .ok repo ∧
          ((∃ e, repo.LoadIndex = .error e ∧
              runLs F OpenRepository lsOptions fuel gopts args =
                ([.openRepository, .loadIndex], .returned (some e))) ∨
            (repo.LoadIndex = .ok () ∧
              ((∃ e, resolveResult repo lsOptions args = .error e ∧
                  runLs F OpenRepository lsOptions fuel gopts args =
                    ([.openRepository, .loadIndex, resolveEvent lsOptions args],
                      .exited 1 (resolveMsg F lsOptions args e))) ∨
                ∃ id, resolveResult repo lsOptions args = .ok id ∧
                  ((∃ e, repo.LoadSnapshot id = .error e ∧
                      runLs F OpenRepository lsOptions fuel gopts args =
                        ([.openRepository, .loadIndex, resolveEvent lsOptions args,
                          .loadSnapshot id], .returned (some e))) ∨
                    ∃ sn, repo.LoadSnapshot id = .ok sn ∧
                      ((sn.Tree = none ∧
                          runLs F OpenRepository lsOptions fuel gopts args =
                            ([.openRepository, .loadIndex, resolveEvent lsOptions args,
                              .loadSnapshot id, .verbosef sn.Paths sn.Time], .panicked)) ∨
                        ∃ root, sn.Tree = some root ∧
                          runLs F OpenRepository lsOptions fuel gopts args =
                            ([.openRepository, .loadIndex, resolveEvent lsOptions args,
                                .loadSnapshot id, .verbosef sn.Paths sn.Time] ++
                              (printTree repo fuel [] root).1,
                              (printTree repo fuel [] root).2)))))))) := by
  by_cases hlen : args.length < 1 ∨ args.length > 2
  · left
    refine ⟨by omega, ?_⟩
    simp only [runLs, if_pos hlen]
  · right
    refine ⟨by omega, by omega, ?_⟩
    cases ho : OpenRepository gopts with
    | error e =>
      left
      exact ⟨e, rfl, by simp only [runLs, if_neg hlen, ho]⟩
    | ok repo =>
      right
      refine ⟨repo, rfl, ?_⟩
      cases hi : repo.LoadIndex with
      | error e =>
        left
        exact ⟨e, rfl, by simp only [runLs, if_neg hlen, ho, hi]⟩
      | ok u =>
        right
        refine ⟨rfl, ?_⟩
        have loaded : ∀ (pre : List (Event τ)) (id : ID),
            (∃ e, repo.LoadSnapshot id = .error e ∧
              runLsLoaded repo fuel pre id = (pre ++ [.loadSnapshot id], .returned (some e))) ∨
            ∃ sn, repo.LoadSnapshot id = .ok sn ∧
              ((sn.Tree = none ∧ runLsLoaded repo fuel pre id =
                  (pre ++ [.loadSnapshot id, .verbosef sn.Paths sn.Time], .panicked)) ∨
                ∃ root, sn.Tree = some root ∧ runLsLoaded repo fuel pre id =
                  (pre ++ [.loadSnapshot id, .verbosef sn.Paths sn.Time] ++
                    (printTree repo fuel [] root).1, (printTree repo fuel [] root).2)) := by
          intro pre id
          cases hs : repo.LoadSnapshot id with
          | error e => exact .inl ⟨e, rfl, by simp only [runLsLoaded, hs]⟩
          | ok sn =>
            refine .inr ⟨sn, rfl, ?_⟩
            cases ht : sn.Tree with
            | none => exact .inl ⟨rfl, by simp only [runLsLoaded, hs, ht]⟩
            | some root => exact .inr ⟨root, rfl, by simp only [runLsLoaded, hs, ht]⟩
        by_cases hlatest : args.headD [] = "latest".toList
        · cases hr : repo.FindLatestSnapshot lsOptions.Paths lsOptions.Host with
          | error e =>
            left
            refine ⟨e, by simp only [resolveResult, if_pos hlatest, hr], ?_⟩
            simp only [runLs, if_neg hlen, ho, hi, if_pos hlatest, hr, resolveEvent,
              resolveMsg]
          | ok id =>
            right
            refine ⟨id, by simp only [resolveResult, if_pos hlatest, hr], ?_⟩
            have := loaded [.openRepository, .loadIndex,
              .findLatestSnapshot lsOptions.Paths lsOptions.Host] id
            simpa only [runLs, if_neg hlen, ho, hi, if_pos hlatest, hr, resolveEvent,
              List.cons_append, List.nil_append] using this
        · cases hr : repo.FindSnapshot (args.headD []) with
          | error e =>
            left
            refine ⟨e, by simp only [resolveResult, if_neg hlatest, hr], ?_⟩
            simp only [runLs, if_neg hlen, ho, hi, if_neg hlatest, hr, resolveEvent,
              resolveMsg]
          | ok id =>
            right
            refine ⟨id, by simp only [resolveResult, if_neg hlatest, hr], ?_⟩
            have := loaded [.openRepository, .loadIndex, .findSnapshot (args.headD [])] id
            simpa only [runLs, if_neg hlen, ho, hi, if_neg hlatest, hr, resolveEvent,
              List.cons_append, List.nil_append] using this

theorem resolveEvent_isResolve (τ : Type) :
    (resolveEvent lsOptions args : Event τ).IsResolve := by
  unfold resolveEvent
  split <;> trivial

/-- A run of `runLs` that gets to the resolution of the snapshot reference: the trace
starts with the opening of the repository, the load of the index and the resolver call; no
other resolver call follows; a failed resolution ends the process, a successful one is
followed by the load of the snapshot it gives. -/
theorem runLs_reached (repo : Repository τ) (h1 : 1 ≤ args.length) (h2 : args.length ≤ 2)
    (ho : OpenRepository gopts = .ok repo) (hi : repo.LoadIndex = .ok ()) :
    ∃ rest, (runLs F OpenRepository lsOptions fuel gopts args).1 =
        [.openRepository, .loadIndex, resolveEvent lsOptions args] ++ rest ∧
      (∀ ev ∈ rest, ¬ ev.IsResolve) ∧
      (∀ e, resolveResult repo lsOptions args = .error e →
        runLs F OpenRepository lsOptions fuel gopts args =
          ([.openRepository, .loadIndex, resolveEvent lsOptions args],
            .exited 1 (resolveMsg F lsOptions args e))) ∧
      (∀ id, resolveResult repo lsOptions args = .ok id →
        rest.head? = some (.loadSnapshot id)) := by
  rcases runLs_cases F OpenRepository lsOptions fuel gopts args with
    ⟨hlen, _⟩ | ⟨_, _, ⟨e, he, _⟩ | ⟨repo', ho', hrest⟩⟩
  · omega
  · rw [ho] at he; cases he
  · rw [ho] at ho'
    cases ho'
    rcases hrest with ⟨e, he, _⟩ | ⟨_, ⟨e, hr, hrun⟩ | ⟨id, hr, hrest⟩⟩
    · rw [hi] at he; cases he
    · refine ⟨[], (by rw [hrun]; rfl), fun ev hev => (by cases hev), fun e' he' => ?_,
        fun id hid => ?_⟩
      · rw [hr] at he'; cases he'; exact hrun
      · rw [hr] at hid; cases hid
    · rcases hrest with ⟨e, _, hrun⟩ | ⟨sn, _, ⟨_, hrun⟩ | ⟨root, _, hrun⟩⟩
      · refine ⟨[.loadSnapshot id], (by rw [hrun]; rfl), ?_, fun e' he' => ?_, fun id' hid => ?_⟩
        · intro ev hev
          simp only [List.mem_singleton] at hev
          subst hev
          exact fun h => h
        · rw [hr] at he'; cases he'
        · rw [hr] at hid; cases hid; rfl
      · refine ⟨[.loadSnapshot id, .verbosef sn.Paths sn.Time], (by rw [hrun]; rfl), ?_,
          fun e' he' => ?_, fun id' hid => ?_⟩
        · intro ev hev
          simp only [List.mem_cons, List.mem_singleton, List.not_mem_nil, or_false] at hev
          rcases hev with rfl | rfl <;> exact fun h => h
        · rw [hr] at he'; cases he'
        · rw [hr] at hid; cases hid; rfl
      · refine ⟨[.loadSnapshot id, .verbosef sn.Paths sn.Time] ++
            (printTree repo fuel [] root).1, (by rw [hrun]; rfl), ?_,
          fun e' he' => ?_, fun id' hid => ?_⟩
        · intro ev hev
          simp only [List.mem_cons, List.mem_append, List.not_mem_nil, or_false] at hev
          rcases hev with (rfl | rfl) | hev
          · exact fun h => h
          · exact fun h => h
          · have := printTree_isTraversal repo fuel [] root ev hev
            cases ev <;> first | exact fun h => h | cases this
        · rw [hr] at he'; cases he'
        · rw [hr] at hid; cases hid; rfl

/-- A trace that starts with the opening of the repository and the load of the index: an
event that reads the repository through the index comes after the load of the index. -/
theorem needsIndex_after (rest pre post : List (Event τ)) (ev : Event τ)
    (h : Event.openRepository :: Event.loadIndex :: rest = pre ++ ev :: post)
    (hn : ev.NeedsIndex) : Event.loadIndex ∈ pre := by
  cases pre with
  | nil =>
    simp only [List.nil_append, List.cons.injEq] at h
    rw [← h.1] at hn
    cases hn
  | cons a pre =>
    cases pre with
    | nil =>
      simp only [List.cons_append, List.nil_append, List.cons.injEq] at h
      rw [← h.2.1] at hn
      cases hn
    | cons b pre =>
      simp only [List.cons_append, List.cons.injEq] at h
      rw [← h.2.1]
      simp

/-- A run of `runLs` that reaches a tree whose load fails returns the error of that load. -/
theorem runLs_failed_loadTree (repo : Repository τ) (ho : OpenRepository gopts = .ok repo)
    (s : ID) (e : Error)
    (hmem : .loadTree s ∈ (runLs F OpenRepository lsOptions fuel gopts args).1)
    (hfail : repo.LoadTree s = .error e) :
    (runLs F OpenRepository lsOptions fuel gopts args).2 = .returned (some e) := by
  have hres : ∀ s, (Event.loadTree s : Event τ) ≠ resolveEvent lsOptions args := by
    intro s h
    have := resolveEvent_isResolve lsOptions args τ
    rw [← h] at this
    cases this
  rcases runLs_cases F OpenRepository lsOptions fuel gopts args with
    ⟨_, hrun⟩ | ⟨_, _, ⟨e', _, hrun⟩ | ⟨repo', ho', hrest⟩⟩
  · rw [hrun] at hmem; cases hmem
  · rw [hrun] at hmem; simp at hmem
  · rw [ho] at ho'
    cases ho'
    rcases hrest with ⟨e', _, hrun⟩ | ⟨_, ⟨e', _, hrun⟩ | ⟨id, _, hrest⟩⟩
    · rw [hrun] at hmem; simp at hmem
    · rw [hrun] at hmem; simp [hres] at hmem
    · rcases hrest with ⟨e', _, hrun⟩ | ⟨sn, _, ⟨_, hrun⟩ | ⟨root, _, hrun⟩⟩
      · rw [hrun] at hmem; simp [hres] at hmem
      · rw [hrun] at hmem; simp [hres] at hmem
      · rw [hrun] at hmem ⊢
        simp only [List.mem_append, List.mem_cons, List.not_mem_nil, or_false, hres,
          reduceCtorEq, false_or] at hmem
        exact (printTree_failed_load fuel [] root s e hmem hfail).1

/-- A run of `runLs` in which the load of the snapshot fails returns the error of that
load. -/
theorem runLs_failed_loadSnapshot (repo : Repository τ)
    (ho : OpenRepository gopts = .ok repo) (id : ID) (e : Error)
    (hmem : .loadSnapshot id ∈ (runLs F OpenRepository lsOptions fuel gopts args).1)
    (hfail : repo.LoadSnapshot id = .error e) :
    runLs F OpenRepository lsOptions fuel gopts args =
      ([.openRepository, .loadIndex, resolveEvent lsOptions args, .loadSnapshot id],
        .returned (some e)) := by
  have hres : ∀ s, (Event.loadSnapshot s : Event τ) ≠ resolveEvent lsOptions args := by
    intro s h
    have := resolveEvent_isResolve lsOptions args τ
    rw [← h] at this
    cases this
  rcases runLs_cases F OpenRepository lsOptions fuel gopts args with
    ⟨_, hrun⟩ | ⟨_, _, ⟨e', _, hrun⟩ | ⟨repo', ho', hrest⟩⟩
  · rw [hrun] at hmem; cases hmem
  · rw [hrun] at hmem; simp at hmem
  · rw [ho] at ho'
    cases ho'
    rcases hrest with ⟨e', _, hrun⟩ | ⟨_, ⟨e', _, hrun⟩ | ⟨id', _, hrest⟩⟩
    · rw [hrun] at hmem; simp at hmem
    · rw [hrun] at hmem; simp [hres] at hmem
    · have hid : ∀ tr : List (Event τ), (∀ ev ∈ tr, ev.IsTraversal) →
          Event.loadSnapshot id ∈ [Event.openRepository, .loadIndex,
            resolveEvent lsOptions args, .loadSnapshot id'] ++ tr → id = id' := by
        intro tr htr h
        simp only [List.mem_append, List.mem_cons, List.not_mem_nil, or_false, hres,
          reduceCtorEq, false_or, Event.loadSnapshot.injEq] at h
        rcases h with h | h
        · exact h
        · cases htr _ h
      rcases hrest with ⟨e', hs, hrun⟩ | ⟨sn, hs, ⟨_, hrun⟩ | ⟨root, _, hrun⟩⟩
      · rw [hrun] at hmem
        have := hid [] (fun ev hev => by cases hev) (by simpa using hmem)
        subst this
        rw [hfail] at hs
        cases hs
        exact hrun
      · rw [hrun] at hmem
        simp only [List.mem_cons, List.not_mem_nil, or_false, hres, reduceCtorEq, false_or,
          Event.loadSnapshot.injEq] at hmem
        subst hmem
        rw [hfail] at hs
        cases hs
      · rw [hrun] at hmem
        simp only [List.mem_append, List.mem_cons, List.not_mem_nil, or_false, hres,
          reduceCtorEq, false_or, Event.loadSnapshot.injEq] at hmem
        rcases hmem with h | h
        · subst h
          rw [hfail] at hs
          cases hs
        · cases printTree_isTraversal repo fuel [] root _ h

/-- The listing of a run of `runLs` is empty or is the listing of the traversal that `runLs`
starts: `printTree` on the tree of the loaded snapshot, with the empty prefix. -/
theorem runLs_listing :
    listing F lsOptions (runLs F OpenRepository lsOptions fuel gopts args).1 = [] ∨
    ∃ repo id sn root, OpenRepository gopts = .ok repo ∧ repo.LoadSnapshot id = .ok sn ∧
      sn.Tree = some root ∧
      listing F lsOptions (runLs F OpenRepository lsOptions fuel gopts args).1 =
        listing F lsOptions (printTree repo fuel [] root).1 := by
  have hres : Event.line F lsOptions (resolveEvent lsOptions args) = none := by
    unfold resolveEvent
    split <;> rfl
  rcases runLs_cases F OpenRepository lsOptions fuel gopts args with
    ⟨_, hrun⟩ | ⟨_, _, ⟨e', _, hrun⟩ | ⟨repo, ho, hrest⟩⟩
  · left; rw [hrun]; rfl
  · left; rw [hrun]; rfl
  · rcases hrest with ⟨e', _, hrun⟩ | ⟨_, ⟨e', _, hrun⟩ | ⟨id, _, hrest⟩⟩
    · left; rw [hrun]; rfl
    · left; rw [hrun]; simp only [listing, List.filterMap_cons, hres]; rfl
    · rcases hrest with ⟨e', _, hrun⟩ | ⟨sn, hs, ⟨_, hrun⟩ | ⟨root, ht, hrun⟩⟩
      · left; rw [hrun]; simp only [listing, List.filterMap_cons, hres]; rfl
      · left; rw [hrun]; simp only [listing, List.filterMap_cons, hres]; rfl
      · right
        refine ⟨repo, id, sn, root, ho, hs, ht, ?_⟩
        rw [hrun]
        simp only [listing, List.filterMap_cons, List.filterMap_append, hres]
        rfl

end Run

/-! ## The order of the listing -/

/-- C1: when the graph below the root is finite and acyclic and every reachable tree loads,
`printTree(prefix, repo, root)` returns nil and calls `printNode` on the (prefix, node) pairs
of the depth-first pre-order listing of the forest the root unfolds to: stored order, each
directory with a `Subtree` followed at once by the listing of that subtree under
`Join(prefix, Name)`.  For a root tree `[fileA, dirB, fileD]` whose `dirB` has the subtree
`[fileC]` the calls are `[("", fileA), ("", dirB), ("dirB", fileC), ("", fileD)]`. -/
theorem printTree_preorder :
    (∀ {τ : Type} (repo : Repository τ) (pfx : GoString) (root : ID),
      Acyclic repo root → AllLoad repo root →
      ∃ t f, repo.LoadTree root = .ok t ∧ Unfolds repo t.Nodes f ∧ f.firstError = none ∧
        ∀ fuel, f.depth + 1 ≤ fuel →
          (printTree repo fuel pfx root).2 = .returned none ∧
          printed (printTree repo fuel pfx root).1 = f.preorder pfx) ∧
    (∀ {τ : Type} (repo : Repository τ) (root s : ID) (fileA dirB fileC fileD : Node τ),
      repo.LoadTree root = .ok ⟨[fileA, dirB, fileD]⟩ → repo.LoadTree s = .ok ⟨[fileC]⟩ →
      fileA.Typ = "file".toList → fileC.Typ = "file".toList → fileD.Typ = "file".toList →
      dirB.Typ = "dir".toList → dirB.Name = "dirB".toList → dirB.Subtree = some s →
      ∀ fuel, 2 ≤ fuel →
        (printTree repo fuel [] root).2 = .returned none ∧
        printed (printTree repo fuel [] root).1 =
          [([], fileA), ([], dirB), ("dirB".toList, fileC), ([], fileD)]) := by
  constructor
  · intro τ repo pfx root hac hall
    obtain ⟨t, f, ht, hf, hfe⟩ := exists_forest hac hall
    refine ⟨t, f, ht, hf, hfe, fun fuel hfuel => ?_⟩
    rw [printTree_unfolds ht hf fuel pfx hfuel, hfe]
    refine ⟨rfl, ?_⟩
    rw [← printed_events_of_firstError_none f pfx hfe]
    rfl
  · intro τ repo root s fileA dirB fileC fileD hroot hs hA hC hD hB hname hsub fuel hfuel
    have notDir : ¬ ("file".toList = "dir".toList) := by decide
    have hf : Unfolds repo (Tree.Nodes ⟨[fileA, dirB, fileD]⟩)
        (.leaf fileA (.dir dirB (.leaf fileC .nil) (.leaf fileD .nil))) :=
      .leaf (fun h => absurd (hA ▸ h) notDir)
        (.dir hB hsub hs (.leaf (fun h => absurd (hC ▸ h) notDir) .nil)
          (.leaf (fun h => absurd (hD ▸ h) notDir) .nil))
    have hj : Join [] "dirB".toList = "dirB".toList := by decide
    rw [printTree_unfolds hroot hf fuel [] (by simpa [Forest.depth] using hfuel)]
    refine ⟨rfl, ?_⟩
    have hp := printed_events_of_firstError_none
      (Forest.leaf fileA (.dir dirB (.leaf fileC .nil) (.leaf fileD .nil))) [] rfl
    simp only [Forest.preorder, hname, hj, List.nil_append, List.cons_append] at hp
    rw [← hp]
    rfl

/-- The traversal example of the specification, on the example repository. -/
theorem printTree_preorder_witness :
    Acyclic exRepo 1 ∧ AllLoad exRepo 1 ∧
    (∃ t f, exRepo.LoadTree 1 = .ok t ∧ Unfolds exRepo t.Nodes f ∧ f.firstError = none ∧
        ∀ fuel, f.depth + 1 ≤ fuel →
          (printTree exRepo fuel [] 1).2 = .returned none ∧
          printed (printTree exRepo fuel [] 1).1 = f.preorder []) ∧
    ((printTree exRepo 2 [] 1).2 = .returned none ∧
      printed (printTree exRepo 2 [] 1).1 =
        [([], exNode "fileA" "file" none), ([], exNode "dirB" "dir" (some 2)),
          ("dirB".toList, exNode "fileC" "file" none), ([], exNode "fileD" "file" none)]) :=
  ⟨exRepo_acyclic, exRepo_allLoad,
    printTree_preorder.1 exRepo [] 1 exRepo_acyclic exRepo_allLoad,
    printTree_preorder.2 exRepo 1 2 (exNode "fileA" "file" none) (exNode "dirB" "dir" (some 2))
      (exNode "fileC" "file" none) (exNode "fileD" "file" none) rfl rfl rfl rfl rfl rfl rfl rfl
      2 (Nat.le_refl 2)⟩

/-- C10: in every finished run of `printTree` in which every tree that is loaded loads
without an error, `printTree` returns nil and the trace is the load of the root followed, for
each emitted node in order, by the line of the node and, exactly when the node has type `dir`
and a `Subtree`, the load of that subtree right after the line, before any other line: there
is no other load.  There is such a run when the graph below the root is finite and acyclic
and every reachable tree loads. -/
theorem printTree_loads :
    (∀ {τ : Type} (repo : Repository τ) (fuel : Nat) (pfx : GoString) (root : ID),
      (∀ s, .loadTree s ∈ (printTree repo fuel pfx root).1 → ∃ t, repo.LoadTree s = .ok t) →
      (printTree repo fuel pfx root).2 ≠ .running →
      (printTree repo fuel pfx root).2 = .returned none ∧
      (printTree repo fuel pfx root).1 =
        .loadTree root :: (printed (printTree repo fuel pfx root).1).flatMap fun q =>
          .printNode q.1 q.2 ::
            (if q.2.Typ = "dir".toList then q.2.Subtree.toList.map .loadTree else [])) ∧
    (∀ {τ : Type} (repo : Repository τ) (pfx : GoString) (root : ID),
      Acyclic repo root → AllLoad repo root →
      ∃ bound, ∀ fuel, bound ≤ fuel →
        (printTree repo fuel pfx root).2 = .returned none ∧
        ∀ s, .loadTree s ∈ (printTree repo fuel pfx root).1 →
          ∃ t, repo.LoadTree s = .ok t) := by
  constructor
  · intro τ repo fuel pfx root hok hrun
    have hnil : (printTree repo fuel pfx root).2 = .returned none := by
      rcases @printTree_outcome τ repo fuel pfx root with ⟨err, h⟩ | h
      · cases err with
        | none => exact h
        | some e =>
          exfalso
          rcases (printTree_inv fuel pfx root).1 e h with ⟨h1, h2⟩ | ⟨pre, p, n, s, h1, _, _, h4, _⟩
          · obtain ⟨t, ht⟩ := hok root (by rw [h1]; simp)
            rw [h2] at ht
            cases ht
          · obtain ⟨t, ht⟩ := hok s (by rw [h1]; simp)
            rw [h4] at ht
            cases ht
      · exact absurd h hrun
    exact ⟨hnil, printTree_trace fuel pfx root hnil⟩
  · intro τ repo pfx root hac hall
    obtain ⟨t, f, ht, hf, hfe⟩ := exists_forest hac hall
    refine ⟨f.depth + 1, fun fuel hfuel => ?_⟩
    have hnil : (printTree repo fuel pfx root).2 = .returned none := by
      rw [printTree_unfolds ht hf fuel pfx hfuel, hfe]
    refine ⟨hnil, fun s hs => ?_⟩
    exact (printTree_inv fuel pfx root).2 (fun e he => by rw [hnil] at he; cases he) s
      (mem_loads.2 hs)

/-- The loads of the example repository: tree 2 is loaded right after the line of `dirB`,
and no tree is loaded for the files. -/
theorem printTree_loads_witness :
    (printTree exRepo 2 [] 1).1 =
      [.loadTree 1, .printNode [] (exNode "fileA" "file" none),
        .printNode [] (exNode "dirB" "dir" (some 2)), .loadTree 2,
        .printNode "dirB".toList (exNode "fileC" "file" none),
        .printNode [] (exNode "fileD" "file" none)] ∧
    ((printTree exRepo 2 [] 1).2 = .returned none ∧
      (printTree exRepo 2 [] 1).1 =
        .loadTree 1 :: (printed (printTree exRepo 2 [] 1).1).flatMap (fun q =>
          .printNode q.1 q.2 ::
            (if q.2.Typ = "dir".toList then q.2.Subtree.toList.map .loadTree else []))) ∧
    Acyclic exRepo 1 ∧ AllLoad exRepo 1 ∧
    ∃ bound, ∀ fuel, bound ≤ fuel →
      (printTree exRepo fuel [] 1).2 = .returned none ∧
      ∀ s, .loadTree s ∈ (printTree exRepo fuel [] 1).1 → ∃ t, exRepo.LoadTree s = .ok t :=
  ⟨by decide,
    printTree_loads.1 exRepo 2 [] 1
      (fun s hs => by
        have h : s = 1 ∨ s = 2 := by
          have h1 : (printTree exRepo 2 [] 1).1 =
              [.loadTree 1, .printNode [] (exNode "fileA" "file" none),
                .printNode [] (exNode "dirB" "dir" (some 2)), .loadTree 2,
                .printNode "dirB".toList (exNode "fileC" "file" none),
                .printNode [] (exNode "fileD" "file" none)] := by decide
          rw [h1] at hs
          simpa using hs
        rcases h with rfl | rfl
        · exact ⟨_, rfl⟩
        · exact ⟨_, rfl⟩)
      (by decide),
    exRepo_acyclic, exRepo_allLoad,
    printTree_loads.2 exRepo [] 1 exRepo_acyclic exRepo_allLoad⟩

/-! ## The paths of the short listing -/

/-- C2, as the code has it: the traversal that `runLs` starts is `printTree` on the tree of
the snapshot with the empty prefix, and when every node name is a plain file name (not
empty, without a path separator, neither `.` nor `..`, and without `%`, which `Printf` would
read as a verb) each line of the short listing is the names of the ancestor directory nodes
of the node, from the root down, and the name of the node, joined with the path
separator. -/
theorem short_listing_paths :
    (∀ {τ : Type} (F : Fmt τ) (lsOptions : LsOptions) (repo : Repository τ) (root : ID)
      (t : Tree τ) (f : Forest τ) (fuel : Nat),
      F.Literal → lsOptions.ListLong = false → repo.LoadTree root = .ok t →
      Unfolds repo t.Nodes f → f.NamesValid PlainName → f.depth + 1 ≤ fuel →
      ∃ m, listing F lsOptions (printTree repo fuel [] root).1 =
          ((f.withAncestors []).take m).map (fun q => joinedPath q.1 q.2.Name ++ ['\n']) ∧
        (f.firstError = none → m = (f.withAncestors []).length)) ∧
    (∀ {τ G : Type} (F : Fmt τ) (OpenRepository : G → Except Error (Repository τ))
      (lsOptions : LsOptions) (fuel : Nat) (gopts : G) (args : List GoString),
      listing F lsOptions (runLs F OpenRepository lsOptions fuel gopts args).1 = [] ∨
      ∃ repo id sn root, OpenRepository gopts = .ok repo ∧ repo.LoadSnapshot id = .ok sn ∧
        sn.Tree = some root ∧
        listing F lsOptions (runLs F OpenRepository lsOptions fuel gopts args).1 =
          listing F lsOptions (printTree repo fuel [] root).1) :=
  ⟨fun F lsOptions _ _ _ _ fuel hF hshort hl hf hv hfuel =>
      listing_short_of_unfolds F hF lsOptions hshort hl hf hv fuel hfuel,
    fun F OpenRepository lsOptions fuel gopts args =>
      runLs_listing F OpenRepository lsOptions fuel gopts args⟩

/-- The short listing of the example repository. -/
theorem short_listing_paths_witness :
    exFmt.Literal ∧ shortOpts.ListLong = false ∧
    exRepo.LoadTree 1 = .ok ⟨[exNode "fileA" "file" none, exNode "dirB" "dir" (some 2),
      exNode "fileD" "file" none]⟩ ∧
    exForest.NamesValid PlainName ∧
    (∃ m, listing exFmt shortOpts (printTree exRepo 2 [] 1).1 =
        ((exForest.withAncestors []).take m).map (fun q => joinedPath q.1 q.2.Name ++ ['\n']) ∧
      (exForest.firstError = none → m = (exForest.withAncestors []).length)) ∧
    listing exFmt shortOpts (printTree exRepo 2 [] 1).1 =
      ["fileA\n".toList, "dirB\n".toList, "dirB/fileC\n".toList, "fileD\n".toList] :=
  ⟨fun _ _ => rfl, rfl, rfl, exForest_namesValid,
    short_listing_paths.1 exFmt shortOpts exRepo 1 _ exForest 2 (fun _ _ => rfl) rfl rfl
      exRepo_unfolds exForest_namesValid (by decide),
    by decide⟩

/-- C2 fails on the name `.`, which has no path separator: in the short listing started by
`runLs` the entry `.` of the directory `a` is printed as `a`, not as `a/.` (the lines hold no
`%`, so `Printf` writes them as they are). -/
theorem short_listing_dot_name :
    '/' ∉ "a".toList ∧ '/' ∉ ".".toList ∧
    dotRepo.LoadTree 1 = .ok ⟨[exNode "a" "dir" (some 2)]⟩ ∧
    dotRepo.LoadTree 2 = .ok ⟨[exNode "." "file" none]⟩ ∧
    printed (runLs exFmt (openOk dotRepo) shortOpts 2 () ["latest".toList]).1 =
      [([], exNode "a" "dir" (some 2)), ("a".toList, exNode "." "file" none)] ∧
    printNode exFmt shortOpts "a".toList (exNode "." "file" none) = "a".toList ∧
    listing exFmt shortOpts (runLs exFmt (openOk dotRepo) shortOpts 2 () ["latest".toList]).1 =
      ["a\n".toList, "a\n".toList] ∧
    joinedPath ["a".toList] ".".toList ++ ['\n'] = "a/.\n".toList :=
  ⟨by decide, by decide, rfl, rfl, by decide, by decide, by decide, by decide⟩

/-! ## Errors of the traversal -/

/-- C3: a run of `printTree` that reaches a tree whose load fails returns exactly the error
of that load; the failing load is the last event of the trace, every load before it has
succeeded, and it is the load of the root or comes right after the line of the directory
node it belongs to, so nothing is emitted after that line.  When the graph below the root is
finite and acyclic and some reachable tree fails to load, `printTree` returns such an error,
and the emitted entries are the pre-order listing up to and including the first directory
node whose subtree fails to load (none when the root itself fails). -/
theorem printTree_first_error :
    (∀ {τ : Type} (repo : Repository τ) (fuel : Nat) (pfx : GoString) (root s : ID)
      (err : Error),
      .loadTree s ∈ (printTree repo fuel pfx root).1 → repo.LoadTree s = .error err →
      (printTree repo fuel pfx root).2 = .returned (some err) ∧
      ∃ pre, (printTree repo fuel pfx root).1 = pre ++ [.loadTree s] ∧ LoadsOk repo pre ∧
        (pre = [] ∧ s = root ∨
          ∃ (pre0 : List (Event τ)) (p : GoString) (n : Node τ),
            pre = pre0 ++ [Event.printNode p n] ∧
            n.Typ = "dir".toList ∧ n.Subtree = some s)) ∧
    (∀ {τ : Type} (repo : Repository τ) (pfx : GoString) (root : ID),
      Acyclic repo root → (∃ s err, Reachable repo root s ∧ repo.LoadTree s = .error err) →
      ∃ bound, ∀ fuel, bound ≤ fuel → ∃ e,
        (printTree repo fuel pfx root).2 = .returned (some e) ∧
        ((repo.LoadTree root = .error e ∧ printed (printTree repo fuel pfx root).1 = []) ∨
          ∃ t f i p n s, repo.LoadTree root = .ok t ∧ Unfolds repo t.Nodes f ∧
            (f.preorder pfx)[i]? = some (p, n) ∧ n.Typ = "dir".toList ∧
            n.Subtree = some s ∧ repo.LoadTree s = .error e ∧
            (∀ q ∈ (f.preorder pfx).take i, ∀ s0, q.2.Typ = "dir".toList →
              q.2.Subtree = some s0 → ∃ t0, repo.LoadTree s0 = .ok t0) ∧
            printed (printTree repo fuel pfx root).1 = (f.preorder pfx).take (i + 1))) := by
  constructor
  · intro τ repo fuel pfx root s err hmem hfail
    exact printTree_failed_load fuel pfx root s err hmem hfail
  · intro τ repo pfx root hac ⟨s, err, hreach, hfail⟩
    rcases hac.unfolds with ⟨e, he⟩ | ⟨t, f, ht, hf⟩
    · refine ⟨1, fun fuel hfuel => ⟨e, ?_, .inl ⟨he, ?_⟩⟩⟩
      · rw [printTree_fails he fuel pfx hfuel]
      · rw [printTree_fails he fuel pfx hfuel]
        rfl
    · have hfe : ∃ e, f.firstError = some e := by
        cases h : f.firstError with
        | some e => exact ⟨e, rfl⟩
        | none =>
          exfalso
          rcases hreach.head with rfl | ⟨t0, n0, s0, g1, g2, g3, g4, g5⟩
          · rw [hfail] at ht
            cases ht
          · rw [ht] at g1
            cases g1
            obtain ⟨t1, ht1⟩ := hf.reachable_load h n0 g2 s0 g3 g4 s g5
            rw [hfail] at ht1
            cases ht1
      obtain ⟨e, hfe⟩ := hfe
      refine ⟨f.depth + 1, fun fuel hfuel => ⟨e, ?_, .inr ?_⟩⟩
      · rw [printTree_unfolds ht hf fuel pfx hfuel, hfe]
      · obtain ⟨p, n, s1, k1, k2, k3, k4⟩ := hf.getElem_failIndex pfx e hfe
        refine ⟨t, f, f.failIndex, p, n, s1, ht, hf, k1, k2, k3, k4,
          hf.loads_before_failIndex pfx, ?_⟩
        rw [printTree_unfolds ht hf fuel pfx hfuel,
          ← printed_events_of_firstError_some f pfx e hfe]
        rfl

/-- The broken example repository: the traversal stops after the line of `dirB`, whose
subtree fails to load, and returns the error of that load; `fileD` is not emitted. -/
theorem printTree_first_error_witness :
    (.loadTree 2 ∈ (printTree brokenRepo 2 [] 1).1 ∧
      brokenRepo.LoadTree 2 = .error notFound ∧
      (printTree brokenRepo 2 [] 1).2 = .returned (some notFound) ∧
      ∃ pre, (printTree brokenRepo 2 [] 1).1 = pre ++ [.loadTree 2] ∧ LoadsOk brokenRepo pre ∧
        (pre = [] ∧ 2 = 1 ∨
          ∃ (pre0 : List (Event Unit)) (p : GoString) (n : Node Unit),
            pre = pre0 ++ [Event.printNode p n] ∧
            n.Typ = "dir".toList ∧ n.Subtree = some 2)) ∧
    (Acyclic brokenRepo 1 ∧
      (∃ s err, Reachable brokenRepo 1 s ∧ brokenRepo.LoadTree s = .error err) ∧
      ∃ bound, ∀ fuel, bound ≤ fuel → ∃ e,
        (printTree brokenRepo fuel [] 1).2 = .returned (some e) ∧
        ((brokenRepo.LoadTree 1 = .error e ∧ printed (printTree brokenRepo fuel [] 1).1 = []) ∨
          ∃ t f i p n s, brokenRepo.LoadTree 1 = .ok t ∧ Unfolds brokenRepo t.Nodes f ∧
            (f.preorder [])[i]? = some (p, n) ∧ n.Typ = "dir".toList ∧
            n.Subtree = some s ∧ brokenRepo.LoadTree s = .error e ∧
            (∀ q ∈ (f.preorder []).take i, ∀ s0, q.2.Typ = "dir".toList →
              q.2.Subtree = some s0 → ∃ t0, brokenRepo.LoadTree s0 = .ok t0) ∧
            printed (printTree brokenRepo fuel [] 1).1 = (f.preorder []).take (i + 1))) ∧
    printed (printTree brokenRepo 2 [] 1).1 =
      [([], exNode "fileA" "file" none), ([], exNode "dirB" "dir" (some 2))] :=
  ⟨⟨by decide, rfl,
      printTree_first_error.1 brokenRepo 2 [] 1 2 notFound (by decide) rfl⟩,
    ⟨brokenRepo_acyclic, brokenRepo_reachable,
      printTree_first_error.2 brokenRepo [] 1 brokenRepo_acyclic brokenRepo_reachable⟩,
    by decide⟩

/-! ## Termination -/

/-- C4, as the code has it: when the graph below the root is finite and acyclic, `printTree`
terminates, from a recursion depth on that depends on the graph: it returns nil, or the
error of a `LoadTree` call that it made.  The code has no bound on the depth of its own. -/
theorem printTree_terminates {τ : Type} (repo : Repository τ) (pfx : GoString) (root : ID)
    (hac : Acyclic repo root) :
    ∃ bound, ∀ fuel, bound ≤ fuel →
      (printTree repo fuel pfx root).2 = .returned none ∨
      ∃ s e, .loadTree s ∈ (printTree repo fuel pfx root).1 ∧ repo.LoadTree s = .error e ∧
        (printTree repo fuel pfx root).2 = .returned (some e) := by
  have key : ∀ fuel err, (printTree repo fuel pfx root).2 = .returned err →
      (printTree repo fuel pfx root).2 = .returned none ∨
      ∃ s e, .loadTree s ∈ (printTree repo fuel pfx root).1 ∧ repo.LoadTree s = .error e ∧
        (printTree repo fuel pfx root).2 = .returned (some e) := by
    intro fuel err h
    cases err with
    | none => exact .inl h
    | some e =>
      right
      rcases (printTree_inv fuel pfx root).1 e h with ⟨h1, h2⟩ | ⟨pre, p, n, s, h1, _, _, h4, _⟩
      · exact ⟨root, e, by rw [h1]; simp, h2, h⟩
      · exact ⟨s, e, by rw [h1]; simp, h4, h⟩
  rcases hac.unfolds with ⟨err, he⟩ | ⟨t, f, ht, hf⟩
  · exact ⟨1, fun fuel hfuel => key fuel (some err) (by rw [printTree_fails he fuel pfx hfuel])⟩
  · exact ⟨f.depth + 1, fun fuel hfuel =>
      key fuel f.firstError (by rw [printTree_unfolds ht hf fuel pfx hfuel])⟩

/-- The traversals of the example repositories return: nil, and the error of the load of
tree 2. -/
theorem printTree_terminates_witness :
    (Acyclic exRepo 1 ∧
      ∃ bound, ∀ fuel, bound ≤ fuel →
        (printTree exRepo fuel [] 1).2 = .returned none ∨
        ∃ s e, .loadTree s ∈ (printTree exRepo fuel [] 1).1 ∧ exRepo.LoadTree s = .error e ∧
          (printTree exRepo fuel [] 1).2 = .returned (some e)) ∧
    (Acyclic brokenRepo 1 ∧
      ∃ bound, ∀ fuel, bound ≤ fuel →
        (printTree brokenRepo fuel [] 1).2 = .returned none ∨
        ∃ s e, .loadTree s ∈ (printTree brokenRepo fuel [] 1).1 ∧
          brokenRepo.LoadTree s = .error e ∧
          (printTree brokenRepo fuel [] 1).2 = .returned (some e)) :=
  ⟨⟨exRepo_acyclic, printTree_terminates exRepo [] 1 exRepo_acyclic⟩,
    ⟨brokenRepo_acyclic, printTree_terminates brokenRepo [] 1 brokenRepo_acyclic⟩⟩

/-- C4 fails on a tree whose directory node refers to the tree itself: whatever the depth
allowed, `printTree` is still running, has returned no error, and has loaded the tree once
per level. -/
theorem printTree_self_reference_diverges :
    selfRepo.LoadTree 1 = .ok ⟨[exNode "d" "dir" (some 1)]⟩ ∧
    (¬ ∃ fuel, (printTree selfRepo fuel [] 1).2 ≠ .running) ∧
    (¬ ∃ fuel, (loads (printTree selfRepo fuel [] 1).1).length ≠ fuel) :=
  ⟨rfl, fun ⟨fuel, h⟩ => h (printTree_selfRepo fuel []).1,
    fun ⟨fuel, h⟩ => h (printTree_selfRepo fuel []).2⟩

/-! ## The command -/

/-- C5: in a run of `runLs` that gets to the resolution of the snapshot reference, the
resolver call is `FindLatestSnapshot(repo, Paths, Host)` with the options `--path` and
`--host` when the first argument is `latest`, and `FindSnapshot(repo, s)` for every other
first argument `s`; it is the only resolver call of the run, and the snapshot loaded next is
the one it gives.  A resolver call of any run is that call.  For a first argument other
than `latest` the whole run (trace and outcome) is the same for every value of `Host` and
`Paths`. -/
theorem runLs_resolver {τ G : Type} (F : Fmt τ)
    (OpenRepository : G → Except Error (Repository τ)) (lsOptions : LsOptions) (fuel : Nat)
    (gopts : G) (args : List GoString) :
    (∀ repo, 1 ≤ args.length → args.length ≤ 2 → OpenRepository gopts = .ok repo →
      repo.LoadIndex = .ok () → args.headD [] = "latest".toList →
      ∃ rest, (runLs F OpenRepository lsOptions fuel gopts args).1 =
          [.openRepository, .loadIndex,
            .findLatestSnapshot lsOptions.Paths lsOptions.Host] ++ rest ∧
        (∀ ev ∈ rest, ¬ ev.IsResolve) ∧
        (∀ id, repo.FindLatestSnapshot lsOptions.Paths lsOptions.Host = .ok id →
          rest.head? = some (.loadSnapshot id))) ∧
    (∀ repo, 1 ≤ args.length → args.length ≤ 2 → OpenRepository gopts = .ok repo →
      repo.LoadIndex = .ok () → args.headD [] ≠ "latest".toList →
      ∃ rest, (runLs F OpenRepository lsOptions fuel gopts args).1 =
          [.openRepository, .loadIndex, .findSnapshot (args.headD [])] ++ rest ∧
        (∀ ev ∈ rest, ¬ ev.IsResolve) ∧
        (∀ id, repo.FindSnapshot (args.headD []) = .ok id →
          rest.head? = some (.loadSnapshot id))) ∧
    (∀ ev ∈ (runLs F OpenRepository lsOptions fuel gopts args).1, ev.IsResolve →
      ev = if args.headD [] = "latest".toList then
          .findLatestSnapshot lsOptions.Paths lsOptions.Host
        else .findSnapshot (args.headD [])) ∧
    (args.headD [] ≠ "latest".toList → ∀ host paths,
      runLs F OpenRepository ⟨lsOptions.ListLong, host, paths⟩ fuel gopts args =
        runLs F OpenRepository lsOptions fuel gopts args) := by
  refine ⟨fun repo h1 h2 ho hi hl => ?_, fun repo h1 h2 ho hi hl => ?_, fun ev hev hres => ?_,
    fun hl host paths => ?_⟩
  · obtain ⟨rest, h3, h4, _, h6⟩ :=
      runLs_reached F OpenRepository lsOptions fuel gopts args repo h1 h2 ho hi
    simp only [resolveEvent, resolveResult, if_pos hl] at h3 h6
    exact ⟨rest, h3, h4, h6⟩
  · obtain ⟨rest, h3, h4, _, h6⟩ :=
      runLs_reached F OpenRepository lsOptions fuel gopts args repo h1 h2 ho hi
    simp only [resolveEvent, resolveResult, if_neg hl] at h3 h6
    exact ⟨rest, h3, h4, h6⟩
  · rcases runLs_cases F OpenRepository lsOptions fuel gopts args with
      ⟨_, hrun⟩ | ⟨h1, h2, ⟨e, _, hrun⟩ | ⟨repo, ho, ⟨e, _, hrun⟩ | ⟨hi, _⟩⟩⟩
    · rw [hrun] at hev; cases hev
    · rw [hrun] at hev
      simp only [List.mem_singleton] at hev
      subst hev
      cases hres
    · rw [hrun] at hev
      simp only [List.mem_cons, List.not_mem_nil, or_false] at hev
      rcases hev with rfl | rfl <;> cases hres
    · obtain ⟨rest, h3, h4, _, _⟩ :=
        runLs_reached F OpenRepository lsOptions fuel gopts args repo h1 h2 ho hi
      rw [h3] at hev
      simp only [List.mem_append, List.mem_cons, List.not_mem_nil, or_false] at hev
      rcases hev with (rfl | rfl | rfl) | hev
      · cases hres
      · cases hres
      · rfl
      · exact absurd hres (h4 ev hev)
  · simp only [runLs, if_neg hl]

/-- The two resolvers on the example repositories. -/
theorem runLs_resolver_witness :
    (∃ rest, (runLs exFmt (openOk exRepo) ⟨false, "host".toList, []⟩ 2 ()
          ["latest".toList]).1 =
        [.openRepository, .loadIndex, .findLatestSnapshot [] "host".toList] ++ rest ∧
      (∀ ev ∈ rest, ¬ ev.IsResolve) ∧
      (∀ id, exRepo.FindLatestSnapshot [] "host".toList = .ok id →
        rest.head? = some (.loadSnapshot id))) ∧
    (∃ rest, (runLs exFmt (openOk exRepo) ⟨false, "host".toList, []⟩ 2 ()
          ["abc".toList]).1 =
        [.openRepository, .loadIndex, .findSnapshot "abc".toList] ++ rest ∧
      (∀ ev ∈ rest, ¬ ev.IsResolve) ∧
      (∀ id, exRepo.FindSnapshot "abc".toList = .ok id →
        rest.head? = some (.loadSnapshot id))) ∧
    (Event.findSnapshot "abc".toList : Event Unit) = .findSnapshot "abc".toList ∧
    runLs exFmt (openOk exRepo) ⟨false, "other".toList, ["/p".toList]⟩ 2 ()
        ["abc".toList] =
      runLs exFmt (openOk exRepo) ⟨false, "host".toList, []⟩ 2 ()
        ["abc".toList] :=
  ⟨(runLs_resolver exFmt (openOk exRepo) ⟨false, "host".toList, []⟩ 2 ()
      ["latest".toList]).1 exRepo (by decide) (by decide) rfl rfl (by decide),
    (runLs_resolver exFmt (openOk exRepo) ⟨false, "host".toList, []⟩ 2 ()
      ["abc".toList]).2.1 exRepo (by decide) (by decide) rfl rfl (by decide),
    (runLs_resolver exFmt (openOk exRepo) ⟨false, "host".toList, []⟩ 2 ()
      ["abc".toList]).2.2.1 (.findSnapshot "abc".toList) (by decide) trivial,
    (runLs_resolver exFmt (openOk exRepo) ⟨false, "host".toList, []⟩ 2 ()
      ["abc".toList]).2.2.2 (by decide) "other".toList ["/p".toList]⟩

/-- C6: in every run of `runLs`, an event that reads the repository through the index (the
resolution of the snapshot reference, `LoadSnapshot`, `LoadTree`) comes after the call of
`LoadIndex`, which has returned without an error; when `OpenRepository` or `LoadIndex` fails,
`runLs` returns that error and the trace holds nothing else, no listing line in
particular. -/
theorem runLs_index_first {τ G : Type} (F : Fmt τ)
    (OpenRepository : G → Except Error (Repository τ)) (lsOptions : LsOptions) (fuel : Nat)
    (gopts : G) (args : List GoString) :
    (∀ pre ev post, (runLs F OpenRepository lsOptions fuel gopts args).1 = pre ++ ev :: post →
      ev.NeedsIndex →
      .loadIndex ∈ pre ∧ ∃ repo, OpenRepository gopts = .ok repo ∧ repo.LoadIndex = .ok ()) ∧
    (∀ e, 1 ≤ args.length → args.length ≤ 2 → OpenRepository gopts = .error e →
      runLs F OpenRepository lsOptions fuel gopts args =
        ([.openRepository], .returned (some e))) ∧
    (∀ repo e, 1 ≤ args.length → args.length ≤ 2 → OpenRepository gopts = .ok repo →
      repo.LoadIndex = .error e →
      runLs F OpenRepository lsOptions fuel gopts args =
        ([.openRepository, .loadIndex], .returned (some e))) := by
  refine ⟨fun pre ev post htr hn => ?_, fun e h1 h2 ho => ?_, fun repo e h1 h2 ho hi => ?_⟩
  · rcases runLs_cases F OpenRepository lsOptions fuel gopts args with
      ⟨_, hrun⟩ | ⟨h1, h2, ⟨e, _, hrun⟩ | ⟨repo, ho, ⟨e, _, hrun⟩ | ⟨hi, _⟩⟩⟩
    · rw [hrun] at htr
      cases pre <;> cases htr
    · rw [hrun] at htr
      have hmem : ev ∈ [Event.openRepository (τ := τ)] := by
        have : ev ∈ pre ++ ev :: post := by simp
        rwa [← htr] at this
      simp only [List.mem_singleton] at hmem
      subst hmem
      cases hn
    · rw [hrun] at htr
      have hmem : ev ∈ [Event.openRepository (τ := τ), .loadIndex] := by
        have : ev ∈ pre ++ ev :: post := by simp
        rwa [← htr] at this
      simp only [List.mem_cons, List.not_mem_nil, or_false] at hmem
      rcases hmem with rfl | rfl <;> cases hn
    · obtain ⟨rest, h3, _⟩ :=
        runLs_reached F OpenRepository lsOptions fuel gopts args repo h1 h2 ho hi
      rw [h3] at htr
      exact ⟨needsIndex_after _ pre post ev htr hn, repo, ho, hi⟩
  · rcases runLs_cases F OpenRepository lsOptions fuel gopts args with
      ⟨_, _⟩ | ⟨_, _, ⟨e', he', hrun⟩ | ⟨repo, ho', _⟩⟩
    · omega
    · rw [ho] at he'; cases he'; exact hrun
    · rw [ho] at ho'; cases ho'
  · rcases runLs_cases F OpenRepository lsOptions fuel gopts args with
      ⟨_, _⟩ | ⟨_, _, ⟨e', he', _⟩ | ⟨repo', ho', ⟨e', he', hrun⟩ | ⟨hi', _⟩⟩⟩
    · omega
    · rw [ho] at he'; cases he'
    · rw [ho] at ho'; cases ho'; rw [hi] at he'; cases he'; exact hrun
    · rw [ho] at ho'; cases ho'; rw [hi] at hi'; cases hi'

/-- The order of the calls on the example repository, and the two failures. -/
theorem runLs_index_first_witness :
    (Event.loadIndex ∈ [Event.openRepository (τ := Unit), .loadIndex] ∧
      ∃ repo, openOk exRepo () = .ok repo ∧ repo.LoadIndex = .ok ()) ∧
    runLs exFmt openFails shortOpts 2 () ["latest".toList] =
      ([.openRepository], .returned (some notFound)) ∧
    runLs exFmt (openOk noIndexRepo) shortOpts 2 () ["latest".toList] =
      ([.openRepository, .loadIndex], .returned (some notFound)) :=
  ⟨(runLs_index_first exFmt (openOk exRepo) shortOpts 2 () ["latest".toList]).1
      [.openRepository, .loadIndex] (.findLatestSnapshot [] [])
      [.loadSnapshot 7, .verbosef [] (), .loadTree 1,
        .printNode [] (exNode "fileA" "file" none),
        .printNode [] (exNode "dirB" "dir" (some 2)), .loadTree 2,
        .printNode "dirB".toList (exNode "fileC" "file" none),
        .printNode [] (exNode "fileD" "file" none)] (by decide) trivial,
    (runLs_index_first exFmt openFails shortOpts 2 ()
      ["latest".toList]).2.1 notFound (by decide) (by decide) rfl,
    (runLs_index_first exFmt (openOk noIndexRepo) shortOpts 2 ()
      ["latest".toList]).2.2 noIndexRepo notFound (by decide) (by decide) rfl rfl⟩

/-- C7: when the resolution of the snapshot reference fails, `runLs` ends the process with
exit status 1 right after the resolver call, so no snapshot or tree is loaded and no line is
listed; the message starts with `latest snapshot for criteria not found: ` and names `Paths`
and `Host` for the reference `latest`, and starts with `invalid id ` and quotes the reference
otherwise, and the two messages are never equal.  A failure of `LoadSnapshot` or of a
`LoadTree` does not end the process: `runLs` returns the error of the failed call. -/
theorem runLs_failures {τ G : Type} (F : Fmt τ)
    (OpenRepository : G → Except Error (Repository τ)) (lsOptions : LsOptions) (fuel : Nat)
    (gopts : G) (args : List GoString) :
    (∀ repo e, 1 ≤ args.length → args.length ≤ 2 → OpenRepository gopts = .ok repo →
      repo.LoadIndex = .ok () → args.headD [] = "latest".toList →
      repo.FindLatestSnapshot lsOptions.Paths lsOptions.Host = .error e →
      runLs F OpenRepository lsOptions fuel gopts args =
        ([.openRepository, .loadIndex, .findLatestSnapshot lsOptions.Paths lsOptions.Host],
          .exited 1 ("latest snapshot for criteria not found: ".toList ++ e.msg ++
            " Paths:".toList ++ fmtStrings lsOptions.Paths ++ " Host:".toList ++
            lsOptions.Host))) ∧
    (∀ repo e, 1 ≤ args.length → args.length ≤ 2 → OpenRepository gopts = .ok repo →
      repo.LoadIndex = .ok () → args.headD [] ≠ "latest".toList →
      repo.FindSnapshot (args.headD []) = .error e →
      runLs F OpenRepository lsOptions fuel gopts args =
        ([.openRepository, .loadIndex, .findSnapshot (args.headD [])],
          .exited 1 ("invalid id ".toList ++ F.quote (args.headD []) ++ ": ".toList ++
            e.msg))) ∧
    (∀ (e1 e2 : Error) (paths : List GoString) (host s : GoString),
      "latest snapshot for criteria not found: ".toList ++ e1.msg ++ " Paths:".toList ++
          fmtStrings paths ++ " Host:".toList ++ host ≠
        "invalid id ".toList ++ F.quote s ++ ": ".toList ++ e2.msg) ∧
    (∀ repo id e, OpenRepository gopts = .ok repo →
      .loadSnapshot id ∈ (runLs F OpenRepository lsOptions fuel gopts args).1 →
      repo.LoadSnapshot id = .error e →
      (runLs F OpenRepository lsOptions fuel gopts args).2 = .returned (some e) ∧
      printed (runLs F OpenRepository lsOptions fuel gopts args).1 = []) ∧
    (∀ repo s e, OpenRepository gopts = .ok repo →
      .loadTree s ∈ (runLs F OpenRepository lsOptions fuel gopts args).1 →
      repo.LoadTree s = .error e →
      (runLs F OpenRepository lsOptions fuel gopts args).2 = .returned (some e)) := by
  refine ⟨fun repo e h1 h2 ho hi hl hr => ?_, fun repo e h1 h2 ho hi hl hr => ?_,
    fun e1 e2 paths host s h => ?_, fun repo id e ho hmem hfail => ?_,
    fun repo s e ho hmem hfail => ?_⟩
  · obtain ⟨_, _, _, h5, _⟩ :=
      runLs_reached F OpenRepository lsOptions fuel gopts args repo h1 h2 ho hi
    have := h5 e (by simp only [resolveResult, if_pos hl, hr])
    simpa only [resolveEvent, resolveMsg, if_pos hl, latestNotFoundMsg] using this
  · obtain ⟨_, _, _, h5, _⟩ :=
      runLs_reached F OpenRepository lsOptions fuel gopts args repo h1 h2 ho hi
    have := h5 e (by simp only [resolveResult, if_neg hl, hr])
    simpa only [resolveEvent, resolveMsg, if_neg hl, invalidIdMsg] using this
  · have := congrArg List.head? h
    simp at this
  · have := runLs_failed_loadSnapshot F OpenRepository lsOptions fuel gopts args repo ho id e
      hmem hfail
    rw [this]
    refine ⟨rfl, ?_⟩
    unfold resolveEvent
    split <;> rfl
  · exact runLs_failed_loadTree F OpenRepository lsOptions fuel gopts args repo ho s e hmem
      hfail

/-- The failures of `runLs` on the example repositories. -/
theorem runLs_failures_witness :
    runLs exFmt (openOk noSnapshotRepo) ⟨false, "h".toList, ["/p".toList]⟩ 2 ()
        ["latest".toList] =
      ([.openRepository, .loadIndex, .findLatestSnapshot ["/p".toList] "h".toList],
        .exited 1
          "latest snapshot for criteria not found: not found Paths:[/p] Host:h".toList) ∧
    runLs exFmt (openOk noSnapshotRepo) shortOpts 2 () ["abc".toList] =
      ([.openRepository, .loadIndex, .findSnapshot "abc".toList],
        .exited 1 "invalid id abc: not found".toList) ∧
    ((runLs exFmt (openOk lostSnapshotRepo) shortOpts 2 () ["abc".toList]).2 =
        .returned (some notFound) ∧
      printed (runLs exFmt (openOk lostSnapshotRepo) shortOpts 2 () ["abc".toList]).1 = []) ∧
    (runLs exFmt (openOk brokenRepo) shortOpts 2 () ["abc".toList]).2 =
      .returned (some notFound) :=
  ⟨(runLs_failures exFmt (openOk noSnapshotRepo) ⟨false, "h".toList, ["/p".toList]⟩ 2 ()
      ["latest".toList]).1 noSnapshotRepo notFound (by decide) (by decide) rfl rfl
      (by decide) rfl,
    (runLs_failures exFmt (openOk noSnapshotRepo) shortOpts 2 () ["abc".toList]).2.1
      noSnapshotRepo notFound (by decide) (by decide) rfl rfl (by decide) rfl,
    (runLs_failures exFmt (openOk lostSnapshotRepo) shortOpts 2 () ["abc".toList]).2.2.2.1
      lostSnapshotRepo 7 notFound rfl (by decide) rfl,
    (runLs_failures exFmt (openOk brokenRepo) shortOpts 2 () ["abc".toList]).2.2.2.2
      brokenRepo 2 notFound rfl (by decide) rfl⟩

/-- C8 (what the code does): `runLs` returns the error `no snapshot ID given` for no argument
and for three or more, but not for two: a second argument is accepted and ignored, and the
run is that of the first argument alone.  On the example repository the arguments
`latest extra` list the snapshot. -/
theorem runLs_two_arguments :
    (∀ {τ G : Type} (F : Fmt τ) (OpenRepository : G → Except Error (Repository τ))
      (lsOptions : LsOptions) (fuel : Nat) (gopts : G) (args : List GoString),
      (args.length = 0 ∨ 3 ≤ args.length) →
      runLs F OpenRepository lsOptions fuel gopts args =
        ([], .returned (some (Fatal "no snapshot ID given".toList)))) ∧
    (∀ {τ G : Type} (F : Fmt τ) (OpenRepository : G → Except Error (Repository τ))
      (lsOptions : LsOptions) (fuel : Nat) (gopts : G) (a b : GoString),
      runLs F OpenRepository lsOptions fuel gopts [a, b] =
        runLs F OpenRepository lsOptions fuel gopts [a]) ∧
    (runLs exFmt (openOk exRepo) shortOpts 2 () ["latest".toList, "extra".toList]).2 =
      .returned none ∧
    listing exFmt shortOpts
        (runLs exFmt (openOk exRepo) shortOpts 2 () ["latest".toList, "extra".toList]).1 =
      ["fileA\n".toList, "dirB\n".toList, "dirB/fileC\n".toList, "fileD\n".toList] := by
  refine ⟨fun F OpenRepository lsOptions fuel gopts args h => ?_,
    fun F OpenRepository lsOptions fuel gopts a b => ?_, by decide, by decide⟩
  · simp only [runLs]
    rw [if_pos (by omega)]
  · simp only [runLs, List.length_cons, List.length_nil, List.headD_cons]
    rfl

/-- The rejected argument lists: the empty one. -/
theorem runLs_two_arguments_witness :
    runLs exFmt (openOk exRepo) shortOpts 2 () [] =
      ([], .returned (some (Fatal "no snapshot ID given".toList))) :=
  runLs_two_arguments.1 exFmt (openOk exRepo) shortOpts 2 () [] (.inl rfl)

/-! ## The listing line -/

/-- C9, as the code has it: without the long option the line is `Join(prefix, Name)` for
every node.  With it, the line of a node of type `file` is the fields Mode, UID, GID, Size,
ModTime and `Join(prefix, Name)` in that order, separated by spaces, the numbers
right-justified to widths 5, 5 and 6; for type `dir` the mode is shown with the directory
bit set; for type `symlink` with the symlink bit set, and ` -> ` and LinkTarget follow; for
every other type the line is `<Node(Type) Name>`, which shows neither mode nor size nor the
prefix. -/
theorem printNode_line {τ : Type} (F : Fmt τ) (lsOptions : LsOptions) (pfx : GoString)
    (n : Node τ) :
    (lsOptions.ListLong = false → printNode F lsOptions pfx n = Join pfx n.Name) ∧
    (lsOptions.ListLong = true → n.Typ = "file".toList →
      printNode F lsOptions pfx n =
        F.modeString n.Mode ++ [' '] ++ fmtD 5 n.UID ++ [' '] ++ fmtD 5 n.GID ++ [' '] ++
          fmtD 6 n.Size ++ [' '] ++ F.timeFormat n.ModTime ++ [' '] ++ Join pfx n.Name) ∧
    (lsOptions.ListLong = true → n.Typ = "dir".toList →
      printNode F lsOptions pfx n =
        F.modeString (n.Mode ||| 2 ^ 31) ++ [' '] ++ fmtD 5 n.UID ++ [' '] ++ fmtD 5 n.GID ++
          [' '] ++ fmtD 6 n.Size ++ [' '] ++ F.timeFormat n.ModTime ++ [' '] ++
          Join pfx n.Name) ∧
    (lsOptions.ListLong = true → n.Typ = "symlink".toList →
      printNode F lsOptions pfx n =
        F.modeString (n.Mode ||| 2 ^ 27) ++ [' '] ++ fmtD 5 n.UID ++ [' '] ++ fmtD 5 n.GID ++
          [' '] ++ fmtD 6 n.Size ++ [' '] ++ F.timeFormat n.ModTime ++ [' '] ++
          Join pfx n.Name ++ [' ', '-', '>', ' '] ++ n.LinkTarget) ∧
    (lsOptions.ListLong = true → n.Typ ≠ "file".toList → n.Typ ≠ "dir".toList →
      n.Typ ≠ "symlink".toList →
      printNode F lsOptions pfx n = "<Node(".toList ++ n.Typ ++ ") ".toList ++ n.Name ++ ['>']) ∧
    ((n.Mode ||| 2 ^ 31).testBit 31 = true ∧ (n.Mode ||| 2 ^ 27).testBit 27 = true ∧
      (∀ i, i ≠ 31 → (n.Mode ||| 2 ^ 31).testBit i = n.Mode.testBit i) ∧
      (∀ i, i ≠ 27 → (n.Mode ||| 2 ^ 27).testBit i = n.Mode.testBit i)) := by
  have hfd : ¬ ("dir".toList = "file".toList) := by decide
  have hfs : ¬ ("symlink".toList = "file".toList) := by decide
  have hds : ¬ ("symlink".toList = "dir".toList) := by decide
  refine ⟨fun h => ?_, fun h ht => ?_, fun h ht => ?_, fun h ht => ?_, fun h h1 h2 h3 => ?_,
    ?_, ?_, fun i hi => ?_, fun i hi => ?_⟩
  · simp only [printNode, h, Bool.not_false, if_true]
  · simp only [printNode, h, ht, Bool.not_true, if_true]
    rfl
  · simp only [printNode, h, ht, Bool.not_true, if_true, if_neg hfd]
    rfl
  · simp only [printNode, h, ht, Bool.not_true, if_true, if_neg hfs, if_neg hds]
    rfl
  · simp only [printNode, h, Bool.not_true, if_neg h1, if_neg h2, if_neg h3]
    rfl
  · rw [Nat.testBit_or, Nat.testBit_two_pow_self, Bool.or_true]
  · rw [Nat.testBit_or, Nat.testBit_two_pow_self, Bool.or_true]
  · rw [Nat.testBit_or, Nat.testBit_two_pow, decide_eq_false (Ne.symm hi), Bool.or_false]
  · rw [Nat.testBit_or, Nat.testBit_two_pow, decide_eq_false (Ne.symm hi), Bool.or_false]

/-- The lines of the example nodes. -/
theorem printNode_line_witness :
    printNode exFmt shortOpts "d".toList (exNode "f" "file" none) = "d/f".toList ∧
    printNode exFmt longOpts "d".toList (exNode "f" "file" none) =
      "644  1000  1000     12 T d/f".toList ∧
    printNode exFmt longOpts "d".toList (exNode "sub" "dir" none) =
      "20000000644  1000  1000     12 T d/sub".toList ∧
    printNode exFmt longOpts "d".toList
        ⟨"l".toList, "symlink".toList, 0o777, 0, 0, 0, (), "target".toList, none⟩ =
      "1000000777     0     0      0 T d/l -> target".toList ∧
    printNode exFmt longOpts "d".toList sockA = "<Node(socket) s>".toList :=
  ⟨by
      have := (printNode_line exFmt shortOpts "d".toList (exNode "f" "file" none)).1 rfl
      rw [this]; decide,
    by
      have := (printNode_line exFmt longOpts "d".toList (exNode "f" "file" none)).2.1 rfl rfl
      rw [this]; decide,
    by
      have := (printNode_line exFmt longOpts "d".toList (exNode "sub" "dir" none)).2.2.1
        rfl rfl
      rw [this]; decide,
    by
      have := (printNode_line exFmt longOpts "d".toList
        ⟨"l".toList, "symlink".toList, 0o777, 0, 0, 0, (), "target".toList, none⟩).2.2.2.1
        rfl rfl
      rw [this]; decide,
    by
      have := (printNode_line exFmt longOpts "d".toList sockA).2.2.2.2.1 rfl (by decide)
        (by decide) (by decide)
      rw [this]; decide⟩

/-- C9 fails on a node of another type: with the long option the lines of two sockets of
the same name and different mode and size are the same line, which shows neither. -/
theorem printNode_other_type :
    sockA.Mode ≠ sockB.Mode ∧ sockA.Size ≠ sockB.Size ∧
    printNode exFmt longOpts "d".toList sockA = "<Node(socket) s>".toList ∧
    printNode exFmt longOpts "d".toList sockB = "<Node(socket) s>".toList := by
  decide

end Restic
